import Mathlib

/-!
Dungeon generator: tile grid and constraint-propagating growth.

A shallow embedding of `src/cpp/main.cpp` (the connectivity codec, the
weighted tile tables, `Map::get_tile`, `Map::generate_tiles`, `Map::create`)
followed by theorems about it.

Conventions of the embedding.

* C++ `int` values are `Int`; no computation of the program leaves the range
  of a 32-bit `int` (indexes stay within `[-16, 272)`), so no wrap-around is
  modelled.  C++ `%` and `/` are `Int.tmod` and `Int.tdiv` (truncation).
* `std::vector` is `List`.  An access `v[i]` outside `[0, v.size())` and a
  modulo by zero are undefined behaviour in C++; the embedding reports them as
  a `Fault` through `Except`.
* `rand()` is a stream `rand : Nat → Nat` of results together with the number
  of results consumed so far (`Run.drawn`).
* The recursion of `generate_tiles` is driven by a fuel argument that bounds
  the recursion depth; running out of fuel is the fault `fuelExhausted`.
* `Run` carries three ghost logs (`calls`, `picks`, `writes`) that only record
  what the program did; no branch of the embedding reads them.
-/

namespace DungeonGenerator

/-! ## Constants and the connectivity codec -/

/-- The constant `const int SIZE = 16;`. -/
abbrev SIZE : Int := 16

/-- The constant `const int MAP_SIZE = SIZE * SIZE;`. -/
abbrev MAP_SIZE : Int := SIZE * SIZE

/-- The constant `const int TOTAL_TILE_TYPES = 16;`. -/
abbrev TOTAL_TILE_TYPES : Int := 16

/-- The constant `const char START_CHAR_INDEX = 15;`. -/
abbrev START_CHAR_INDEX : Int := 15

/-- The constant `const char EMPTY_CHAR_INDEX = 0;`. -/
abbrev EMPTY_CHAR_INDEX : Int := 0

/-- The record `struct TileType { int tile_index; int weight; };`. -/
structure TileType where
  tile_index : Int
  weight : Int
deriving DecidableEq, Repr

/-- The type `typedef std::vector<TileType> TileVec;`. -/
abbrev TileVec := List TileType

/-- The global table `WEIGHTED_TILE_TYPES`. -/
def WEIGHTED_TILE_TYPES : List TileType :=
  [ ⟨0, 1⟩, ⟨1, 8⟩, ⟨2, 8⟩, ⟨3, 6⟩,
    ⟨4, 8⟩, ⟨5, 4⟩, ⟨6, 6⟩, ⟨7, 8⟩,
    ⟨8, 8⟩, ⟨9, 6⟩, ⟨10, 6⟩, ⟨11, 4⟩,
    ⟨12, 6⟩, ⟨13, 4⟩, ⟨14, 4⟩, ⟨15, 2⟩ ]

/-- The record `struct Neighbors { int top, bottom, left, right; }`. -/
structure Neighbors where
  top : Int
  bottom : Int
  left : Int
  right : Int
deriving DecidableEq, Repr

/-- The constructor `Neighbors(const int index)`. -/
def Neighbors.ofIndex (index : Int) : Neighbors :=
  { top := index - SIZE, bottom := index + SIZE, left := index - 1, right := index + 1 }

/-- The function `bit_on(mask, bit)`: `(bit & mask) == bit`. -/
def bit_on (mask bit : Int) : Bool :=
  Int.land bit mask == bit

/-- The function `weighted_tiles(bit, tileset)`: the loop over the sixteen entries of
`WEIGHTED_TILE_TYPES`, appending those whose variant has `bit` on. -/
def weighted_tiles (bit : Int) (tileset : TileVec) : TileVec :=
  WEIGHTED_TILE_TYPES.foldl
    (fun ts t => if bit_on t.tile_index bit then ts ++ [t] else ts) tileset

/-- The function `has_top_connection`: bit 1. -/
def has_top_connection (tile_index : Int) : Bool := bit_on tile_index 1

/-- The function `has_right_connection`: bit 2. -/
def has_right_connection (tile_index : Int) : Bool := bit_on tile_index 2

/-- The function `has_bottom_connection`: bit 4. -/
def has_bottom_connection (tile_index : Int) : Bool := bit_on tile_index 4

/-- The function `has_left_connection`: bit 8. -/
def has_left_connection (tile_index : Int) : Bool := bit_on tile_index 8

/-! ## Tiles and the map -/

/-- The record `struct Tile { int index; TileType tile_type; ... }`. -/
structure Tile where
  index : Int
  tile_type : TileType
deriving DecidableEq, Repr

/-- The method `Tile::char_index()`. -/
def Tile.char_index (t : Tile) : Int := t.tile_type.tile_index

/-- The method `Tile::set_char_index(index)`: only `tile_type.tile_index` changes. -/
def Tile.set_char_index (t : Tile) (index : Int) : Tile :=
  { t with tile_type := { t.tile_type with tile_index := index } }

/-- The data members of `class Map`. -/
structure Map where
  tiles : List Tile
  bottom_tiles : TileVec
  top_tiles : TileVec
  right_tiles : TileVec
  left_tiles : TileVec
deriving DecidableEq, Repr

/-- The constructor `Map::Map()`: an empty tile vector and the four direction
tables. -/
def Map.new : Map :=
  { tiles := []
    bottom_tiles := weighted_tiles 1 []
    left_tiles := weighted_tiles 2 []
    top_tiles := weighted_tiles 4 []
    right_tiles := weighted_tiles 8 [] }

/-- What goes wrong in the C++ program as undefined behaviour, plus the
embedding's own fuel bound. -/
inductive Fault where
  | indexOutOfRange
  | moduloByZero
  | fuelExhausted
deriving DecidableEq, Repr

/-- The read `this->tiles[i]`. -/
def tile_at (tiles : List Tile) (i : Int) : Except Fault Tile :=
  if 0 ≤ i then
    match tiles[i.toNat]? with
    | some t => .ok t
    | none => .error .indexOutOfRange
  else .error .indexOutOfRange

/-- The write `this->tiles[i].set_char_index(v)`. -/
def set_char_index_at (tiles : List Tile) (i : Int) (v : Int) : Except Fault (List Tile) :=
  if 0 ≤ i then
    match tiles[i.toNat]? with
    | some t => .ok (tiles.set i.toNat (t.set_char_index v))
    | none => .error .indexOutOfRange
  else .error .indexOutOfRange

/-- The variant held at index `i`, `EMPTY_CHAR_INDEX` outside the vector.
Used to state properties; the program reads through `tile_at`. -/
def cell (tiles : List Tile) (i : Int) : Int :=
  match tile_at tiles i with
  | .ok t => t.char_index
  | .error _ => EMPTY_CHAR_INDEX

/-! ## The eight filters of `Map` -/

/-- The method `filter_top_connectable`: it keeps the tiles WITHOUT a top connection. -/
def filter_top_connectable (src : TileVec) : TileVec :=
  src.filter (fun t => !has_top_connection t.tile_index)

/-- The method `filter_not_top_connectable`: it keeps the tiles WITH a top connection. -/
def filter_not_top_connectable (src : TileVec) : TileVec :=
  src.filter (fun t => has_top_connection t.tile_index)

/-- The method `filter_right_connectable`: it keeps the tiles WITHOUT a right connection. -/
def filter_right_connectable (src : TileVec) : TileVec :=
  src.filter (fun t => !has_right_connection t.tile_index)

/-- The method `filter_not_right_connectable`: it keeps the tiles WITH a right connection. -/
def filter_not_right_connectable (src : TileVec) : TileVec :=
  src.filter (fun t => has_right_connection t.tile_index)

/-- The method `filter_bottom_connectable`: it keeps the tiles WITHOUT a bottom connection. -/
def filter_bottom_connectable (src : TileVec) : TileVec :=
  src.filter (fun t => !has_bottom_connection t.tile_index)

/-- The method `filter_not_bottom_connectable`: it keeps the tiles WITH a bottom connection. -/
def filter_not_bottom_connectable (src : TileVec) : TileVec :=
  src.filter (fun t => has_bottom_connection t.tile_index)

/-- The method `filter_left_connectable`: it keeps the tiles WITHOUT a left connection. -/
def filter_left_connectable (src : TileVec) : TileVec :=
  src.filter (fun t => !has_left_connection t.tile_index)

/-- The method `filter_not_left_connectable`: it keeps the tiles WITH a left connection. -/
def filter_not_left_connectable (src : TileVec) : TileVec :=
  src.filter (fun t => has_left_connection t.tile_index)

/-! ## `Map::get_tile` -/

/-- One of the four `if / else if` blocks of `get_tile`:
```
if (boundary) tile_vec = closed(tile_vec);
else if (tiles[nb].char_index() != EMPTY_CHAR_INDEX) {
    if (back(tiles[nb].char_index())) tile_vec = opened(tile_vec);
    else tile_vec = closed(tile_vec);
}
```
-/
def narrow_side (tiles : List Tile) (boundary : Bool) (nb : Int) (back : Int → Bool)
    (closed opened : TileVec → TileVec) (tile_vec : TileVec) : Except Fault TileVec :=
  if boundary then .ok (closed tile_vec)
  else
    match tile_at tiles nb with
    | .error e => .error e
    | .ok t =>
      if t.char_index ≠ EMPTY_CHAR_INDEX then
        if back t.char_index then .ok (opened tile_vec) else .ok (closed tile_vec)
      else .ok tile_vec

/-- The four narrowings of `get_tile`, in source order top, right, bottom,
left: the value of `tile_vec` when the `return` statement is reached. -/
def narrowed (tiles : List Tile) (ti : Int) (tile_vec : TileVec) : Except Fault TileVec := do
  let n := Neighbors.ofIndex ti
  let tile_vec ← narrow_side tiles (decide (n.top < 0)) n.top has_bottom_connection
    filter_top_connectable filter_not_top_connectable tile_vec
  let tile_vec ← narrow_side tiles (Int.tmod ti SIZE == SIZE - 1) n.right has_left_connection
    filter_right_connectable filter_not_right_connectable tile_vec
  let tile_vec ← narrow_side tiles (decide (n.bottom ≥ MAP_SIZE)) n.bottom has_top_connection
    filter_bottom_connectable filter_not_bottom_connectable tile_vec
  narrow_side tiles (Int.tmod ti SIZE == 0) n.left has_right_connection
    filter_left_connectable filter_not_left_connectable tile_vec

/-- The `return` statement of `get_tile`:
`tile_vec[rand() % tile_vec.size()].tile_index` for the `rand()` result `r`. -/
def pick (tile_vec : TileVec) (r : Nat) : Except Fault Int :=
  if tile_vec.length = 0 then .error .moduloByZero
  else
    match tile_vec[r % tile_vec.length]? with
    | some t => .ok t.tile_index
    | none => .error .indexOutOfRange

/-- The state of a generation run: the map, the number of `rand()` results
consumed, and three ghost logs. -/
structure Run where
  map : Map
  drawn : Nat
  /-- Ghost: the arguments of the invocations of `generate_tiles`, in order. -/
  calls : List Int
  /-- Ghost: for each call of `get_tile` that returned, the target index and the
  size of the narrowed candidate vector (a call that does not return is a
  fault of the whole run). -/
  picks : List (Int × Nat)
  /-- Ghost: for each write of `generate_tiles`, the index written and the
  variant the cell held just before the write. -/
  writes : List (Int × Int)
deriving DecidableEq, Repr

/-- The method `Map::get_tile(ti, tile_vec)`: it narrows, then draws. -/
def get_tile (rand : Nat → Nat) (ti : Int) (tile_vec : TileVec) (s : Run) :
    Except Fault (Int × Run) :=
  match narrowed s.map.tiles ti tile_vec with
  | .error e => .error e
  | .ok tv =>
    match pick tv (rand s.drawn) with
    | .error e => .error e
    | .ok v => .ok (v, { s with drawn := s.drawn + 1, picks := s.picks ++ [(ti, tv.length)] })

/-! ## `Map::generate_tiles` and `Map::create` -/

/-- One of the four `if` statements of `generate_tiles`:
```
if (guard && this->tiles[target].char_index() == EMPTY_CHAR_INDEX) {
    tile_indexes.push_back(target);
    this->tiles[target].set_char_index(this->get_tile(target, table));
}
```
where `guard` is the conjunction of the first two conditions, evaluated
before the cell is read (short-circuit `&&`). -/
def grow (rand : Nat → Nat) (guard : Bool) (target : Int) (table : Map → TileVec)
    (st : Run × List Int) : Except Fault (Run × List Int) :=
  if guard then
    match tile_at st.1.map.tiles target with
    | .error e => .error e
    | .ok t =>
      if t.char_index = EMPTY_CHAR_INDEX then
        match get_tile rand target (table st.1.map) st.1 with
        | .error e => .error e
        | .ok (v, s) =>
          match set_char_index_at s.map.tiles target v with
          | .error e => .error e
          | .ok tiles =>
            .ok ({ s with map := { s.map with tiles := tiles },
                          writes := s.writes ++ [(target, t.char_index)] },
                 st.2 ++ [target])
      else .ok st
  else .ok st

/-- The body of `generate_tiles` up to the final loop: reads `ti` and `chi`,
then the four `if` statements in source order.  Returns the new state and
`tile_indexes`. -/
def fill (rand : Nat → Nat) (cur_index : Int) (s : Run) : Except Fault (Run × List Int) :=
  match tile_at s.map.tiles cur_index with
  | .error e => .error e
  | .ok cur =>
    let ti := cur.index
    let chi := cur.tile_type.tile_index
    let n := Neighbors.ofIndex cur_index
    grow rand (decide (n.top ≥ 0) && has_top_connection chi) n.top Map.top_tiles (s, [])
    >>= grow rand (Int.tmod ti SIZE != SIZE - 1 && has_right_connection chi) n.right
          Map.right_tiles
    >>= grow rand (decide (n.bottom < MAP_SIZE) && has_bottom_connection chi) n.bottom
          Map.bottom_tiles
    >>= grow rand (decide (Int.tmod ti SIZE > 0) && has_left_connection chi) n.left
          Map.left_tiles

/-- The method `Map::generate_tiles(cur_index)`; `fuel` bounds the recursion depth. -/
def generate_tiles (rand : Nat → Nat) : Nat → Int → Run → Except Fault Run
  | 0, _, _ => .error .fuelExhausted
  | fuel + 1, cur_index, s =>
    match fill rand cur_index { s with calls := s.calls ++ [cur_index] } with
    | .error e => .error e
    | .ok (s1, tile_indexes) =>
      tile_indexes.foldlM (fun acc i => generate_tiles rand fuel i acc) s1

/-- The first loop of `create`: `MAP_SIZE` times
`tiles.push_back(Tile{ i, EMPTY_CHAR_INDEX })`. -/
def push_empty_tiles (tiles : List Tile) : List Tile :=
  (List.range MAP_SIZE.toNat).foldl
    (fun ts i => ts ++ [{ index := (i : Int), tile_type := ⟨EMPTY_CHAR_INDEX, 0⟩ }]) tiles

/-- The method `Map::create()` with an explicit recursion-depth bound. -/
def create_fuel (fuel : Nat) (rand : Nat → Nat) (m : Map) : Except Fault Run :=
  let tiles := push_empty_tiles m.tiles
  let center_index := Int.tdiv SIZE 2 + Int.tdiv SIZE 2 * SIZE
  match set_char_index_at tiles (Int.tdiv SIZE 2 + Int.tdiv SIZE 2 * SIZE) START_CHAR_INDEX with
  | .error e => .error e
  | .ok tiles =>
    generate_tiles rand fuel center_index
      { map := { m with tiles := tiles }, drawn := 0, calls := [], picks := [], writes := [] }

/-- The method `Map::create()`.  The depth bound is `MAP_SIZE`, which a run on a
freshly constructed map never exhausts. -/
def create (rand : Nat → Nat) (m : Map) : Except Fault Run :=
  create_fuel MAP_SIZE.toNat rand m

/-! ## Vocabulary of the specification

Nothing below is read by the embedded program. -/

/-- The four sides of a cell. -/
inductive Side where
  | top
  | right
  | bottom
  | left
deriving DecidableEq, Repr

/-- The codec predicate of a side. -/
def Side.has : Side → Int → Bool
  | .top => has_top_connection
  | .right => has_right_connection
  | .bottom => has_bottom_connection
  | .left => has_left_connection

/-- The side facing back. -/
def Side.opp : Side → Side
  | .top => .bottom
  | .right => .left
  | .bottom => .top
  | .left => .right

/-- The linear index of the neighbour on a side. -/
def Side.nb : Side → Int → Int
  | .top, i => i - 16
  | .right, i => i + 1
  | .bottom, i => i + 16
  | .left, i => i - 1

/-- Whether the neighbour on a side lies inside the 16 x 16 grid. -/
def Side.inGrid : Side → Int → Bool
  | .top, i => decide (0 ≤ i - 16)
  | .right, i => decide (i % 16 ≠ 15)
  | .bottom, i => decide (i + 16 < 256)
  | .left, i => decide (i % 16 ≠ 0)

/-- An index of the grid. -/
def InRange (i : Int) : Prop := 0 ≤ i ∧ i < 256

/-- The constraint one side of the target cell `ti` puts on a variant `v`:
closed toward the boundary, matching an assigned neighbour, free otherwise. -/
def side_ok (tiles : List Tile) (ti : Int) (d : Side) (v : Int) : Bool :=
  if d.inGrid ti then
    if cell tiles (d.nb ti) ≠ 0 then d.has v == d.opp.has (cell tiles (d.nb ti)) else true
  else !d.has v

/-- All four side constraints, in the order of the narrowings. -/
def fits (tiles : List Tile) (ti : Int) (v : Int) : Bool :=
  side_ok tiles ti .top v && side_ok tiles ti .right v &&
    side_ok tiles ti .bottom v && side_ok tiles ti .left v

/-- The table `generate_tiles` passes to `get_tile` when it grows toward a side. -/
def tableFor : Side → Map → TileVec
  | .top => Map.top_tiles
  | .right => Map.right_tiles
  | .bottom => Map.bottom_tiles
  | .left => Map.left_tiles

/-- The index `create` seeds: `SIZE / 2 + SIZE / 2 * SIZE`. -/
def center_index : Int := Int.tdiv SIZE 2 + Int.tdiv SIZE 2 * SIZE

/-- One step of a path: from `a` to its in-grid neighbour `b` on a side where
`a` has an opening and `b` has the opening facing back. -/
def Link (tiles : List Tile) (a b : Int) : Prop :=
  ∃ d : Side, d.inGrid a = true ∧ b = d.nb a ∧ d.has (cell tiles a) = true ∧
    d.opp.has (cell tiles b) = true

/-- Every cell assigned in `tiles` holds the same variant in `tiles'`. -/
def Frame (tiles tiles' : List Tile) : Prop :=
  ∀ i, cell tiles i ≠ 0 → cell tiles' i = cell tiles i

/-- The invariant of a generation run started by `create` on a fresh map. -/
structure Inv (s : Run) : Prop where
  tables : ∀ d, tableFor d s.map = tableFor d Map.new
  len : s.map.tiles.length = 256
  idx : ∀ i t, tile_at s.map.tiles i = .ok t → t.index = i
  consistent : ∀ i, InRange i → cell s.map.tiles i ≠ 0 →
    ∀ d, side_ok s.map.tiles i d (cell s.map.tiles i) = true
  reach : ∀ i, InRange i → cell s.map.tiles i ≠ 0 →
    Relation.ReflTransGen (Link s.map.tiles) 136 i
  seed : cell s.map.tiles 136 = 15
  calls_nodup : s.calls.Nodup
  calls_assigned : ∀ c ∈ s.calls, InRange c ∧ cell s.map.tiles c ≠ 0
  picks_pos : ∀ p ∈ s.picks, 0 < p.2
  writes_empty : ∀ w ∈ s.writes, w.2 = 0
  writes_nodup : (s.writes.map Prod.fst).Nodup
  writes_assigned : ∀ w ∈ s.writes, InRange w.1 ∧ cell s.map.tiles w.1 ≠ 0 ∧ w.1 ≠ 136
  log_sync : s.picks.map Prod.fst = s.writes.map Prod.fst ∧ s.drawn = s.picks.length
  assigned_written : ∀ i, cell s.map.tiles i ≠ 0 → i = 136 ∨ i ∈ s.writes.map Prod.fst

/-- What relates the state `s0` in which an invocation of `generate_tiles`
starts to a later state `s` of its four `if` statements, with `acc` the
`tile_indexes` recorded so far. -/
structure Filling (s0 s : Run) (acc : List Int) : Prop where
  inv : Inv s
  calls : s.calls = s0.calls
  frame : Frame s0.map.tiles s.map.tiles
  nodup : acc.Nodup
  fresh : ∀ i ∈ acc, InRange i ∧ cell s0.map.tiles i = 0 ∧ cell s.map.tiles i ≠ 0
  recorded : ∀ i, cell s0.map.tiles i = 0 → cell s.map.tiles i ≠ 0 → i ∈ acc

/-- The number of empty cells of the grid: the measure of the recursion. -/
def emptyCount (tiles : List Tile) : Nat :=
  ((Finset.range 256).filter (fun i : Nat => cell tiles (i : Int) = 0)).card

/-- Every opening of the cell `c` faces an assigned in-grid neighbour. -/
def Closed (tiles : List Tile) (c : Int) : Prop :=
  ∀ d : Side, d.inGrid c = true → d.has (cell tiles c) = true → cell tiles (d.nb c) ≠ 0

/-- The effect of one complete invocation `generate_tiles(cur)` from `s` to `s'`. -/
structure Generated (s s' : Run) (cur : Int) : Prop where
  inv : Inv s'
  frame : Frame s.map.tiles s'.map.tiles
  calls_prefix : ∃ new, s'.calls = s.calls ++ cur :: new
  calls_mono : ∀ c ∈ s.calls, c ∈ s'.calls
  calls_cur : cur ∈ s'.calls
  calls_new : ∀ c ∈ s'.calls, c ∈ s.calls ∨ c = cur ∨ cell s.map.tiles c = 0
  visited : ∀ i, cell s.map.tiles i = 0 → cell s'.map.tiles i ≠ 0 → i ∈ s'.calls
  closed : ∀ c ∈ s'.calls, c ∉ s.calls → Closed s'.map.tiles c

/-- The effect of the final loop of `generate_tiles` over `idxs`. -/
structure GeneratedList (s s' : Run) (idxs : List Int) : Prop where
  inv : Inv s'
  frame : Frame s.map.tiles s'.map.tiles
  calls_prefix : ∃ new, s'.calls = s.calls ++ new
  calls_mono : ∀ c ∈ s.calls, c ∈ s'.calls
  called : ∀ i ∈ idxs, i ∈ s'.calls
  calls_new : ∀ c ∈ s'.calls, c ∈ s.calls ∨ c ∈ idxs ∨ cell s.map.tiles c = 0
  visited : ∀ i, cell s.map.tiles i = 0 → cell s'.map.tiles i ≠ 0 → i ∈ s'.calls
  closed : ∀ c ∈ s'.calls, c ∉ s.calls → Closed s'.map.tiles c

/-- The state in which `create` calls `generate_tiles` on a fresh map whose
grid is `tiles`. -/
def seeded (tiles : List Tile) : Run :=
  { map := { Map.new with tiles := tiles }, drawn := 0, calls := [], picks := [], writes := [] }

/-- One step of a path through the finished grid: `a` and `b` are assigned
cells of the grid, `b` is the orthogonal neighbour of `a` on some side (no
wrap-around between rows), `a` has an opening on that side and `b` has the
opening facing back. -/
def MatchedStep (tiles : List Tile) (a b : Int) : Prop :=
  0 ≤ a ∧ a < MAP_SIZE ∧ 0 ≤ b ∧ b < MAP_SIZE ∧
  cell tiles a ≠ EMPTY_CHAR_INDEX ∧ cell tiles b ≠ EMPTY_CHAR_INDEX ∧
  ((b = a - SIZE ∧ has_top_connection (cell tiles a) = true ∧
      has_bottom_connection (cell tiles b) = true) ∨
   (b = a + 1 ∧ a % SIZE ≠ SIZE - 1 ∧ has_right_connection (cell tiles a) = true ∧
      has_left_connection (cell tiles b) = true) ∨
   (b = a + SIZE ∧ has_bottom_connection (cell tiles a) = true ∧
      has_top_connection (cell tiles b) = true) ∨
   (b = a - 1 ∧ a % SIZE ≠ 0 ∧ has_left_connection (cell tiles a) = true ∧
      has_right_connection (cell tiles b) = true))

/-- What an execution from `s` to `s'` may do to the grid: assigned cells keep
their variant, and every write it logs found its cell empty. -/
def WritesOnlyEmpty (s s' : Run) : Prop :=
  (∀ i, cell s.map.tiles i ≠ EMPTY_CHAR_INDEX → cell s'.map.tiles i = cell s.map.tiles i) ∧
  ∃ new, s'.writes = s.writes ++ new ∧ ∀ w ∈ new, w.2 = EMPTY_CHAR_INDEX

/-- The grid `create` builds on a fresh map before it calls `generate_tiles`:
256 empty tiles, the center one set to `START_CHAR_INDEX`. -/
def seed_grid : List Tile :=
  (push_empty_tiles []).set 136 { index := 136, tile_type := ⟨START_CHAR_INDEX, 0⟩ }

/-- Whether the `return` statement of `get_tile`, run on the candidate vector
`tile_vec` with the `rand()` result `r`, yields the variant `v`. -/
def selects (tile_vec : TileVec) (r : Nat) (v : Int) : Bool :=
  match pick tile_vec r with
  | .ok x => x == v
  | .error _ => false

/-- The number of `rand()` results `r` in `[0, N)` for which `get_tile`, on the
narrowed candidate vector `tile_vec`, returns the variant of the candidate `t`. -/
def draws_selecting (tile_vec : TileVec) (N : Nat) (t : TileType) : Nat :=
  Nat.count (fun r => selects tile_vec r t.tile_index = true) N

/-! ## `Map::randomize`, and further vocabulary: side constraints, well-formed maps -/

/-- The method `Map::randomize()`: `MAP_SIZE` times
`tiles.push_back(Tile{ i, rand() % TOTAL_TILE_TYPES })`, the `i`-th tile drawing
the `i`-th result of `rand()`; the weight of the pushed tile type is
value-initialised to 0. -/
def randomize (rand : Nat → Nat) (m : Map) : Map :=
  let tiles := (List.range MAP_SIZE.toNat).foldl
    (fun ts i => ts ++ [{ index := (i : Int),
                          tile_type := ⟨Int.tmod (rand i : Int) TOTAL_TILE_TYPES, 0⟩ }])
    m.tiles
  { m with tiles := tiles }

/-- The constraint of one side of the target cell on a variant, in the words
of the specification: `outside` says the side faces outside the grid, `nbv` is
the variant held by the neighbour on that side, `back` tells whether a variant
has the opening facing back toward the target, and `opening` whether the
variant under test has an opening on this side.  No opening toward the
outside; an opening if the neighbour is assigned and opens back; no opening if
the neighbour is assigned and does not open back; nothing for an unassigned
neighbour. -/
def SideConstraint (outside : Prop) (nbv : Int) (back : Int → Bool) (opening : Bool) : Prop :=
  (outside → opening = false) ∧
  (¬outside → nbv ≠ EMPTY_CHAR_INDEX → back nbv = true → opening = true) ∧
  (¬outside → nbv ≠ EMPTY_CHAR_INDEX → back nbv = false → opening = false)

/-- The four side constraints that the grid `tiles` puts on a variant `v` for
the target cell `ti`: top, right, bottom, left. -/
def SideConstraints (tiles : List Tile) (ti v : Int) : Prop :=
  SideConstraint (ti - SIZE < 0) (cell tiles (ti - SIZE)) has_bottom_connection
    (has_top_connection v) ∧
  SideConstraint (ti % SIZE = SIZE - 1) (cell tiles (ti + 1)) has_left_connection
    (has_right_connection v) ∧
  SideConstraint (ti + SIZE ≥ MAP_SIZE) (cell tiles (ti + SIZE)) has_top_connection
    (has_bottom_connection v) ∧
  SideConstraint (ti % SIZE = 0) (cell tiles (ti - 1)) has_right_connection
    (has_left_connection v)

/-- A map as it is between two statements of a generation run: 256 tiles, each
carrying its own position in `index`, and the direction tables the constructor
built.  The variants held by the tiles are arbitrary. -/
structure WellFormed (m : Map) : Prop where
  len : m.tiles.length = 256
  idx : ∀ i t, tile_at m.tiles i = .ok t → t.index = i
  tables : ∀ d, tableFor d m = tableFor d Map.new

/-- The cells that, in the words of the specification, one invocation of
`generate_tiles` on `cur` assigns itself, in the order top, right, bottom,
left: the in-grid orthogonal neighbours of `cur` (the row above, the next
column of the same row, the row below, the previous column of the same row) on
a side where the variant of `cur` has an opening, that are empty in `tiles`. -/
def expected_targets (tiles : List Tile) (cur : Int) : List Int :=
  (if 0 ≤ cur - SIZE ∧ has_top_connection (cell tiles cur) = true ∧
      cell tiles (cur - SIZE) = EMPTY_CHAR_INDEX then [cur - SIZE] else []) ++
  (if cur % SIZE ≠ SIZE - 1 ∧ has_right_connection (cell tiles cur) = true ∧
      cell tiles (cur + 1) = EMPTY_CHAR_INDEX then [cur + 1] else []) ++
  (if cur + SIZE < MAP_SIZE ∧ has_bottom_connection (cell tiles cur) = true ∧
      cell tiles (cur + SIZE) = EMPTY_CHAR_INDEX then [cur + SIZE] else []) ++
  (if cur % SIZE ≠ 0 ∧ has_left_connection (cell tiles cur) = true ∧
      cell tiles (cur - 1) = EMPTY_CHAR_INDEX then [cur - 1] else [])

/-- Two streams of `rand()` results agree on the positions `lo ≤ n < hi`. -/
def AgreeOn (rand rand' : Nat → Nat) (lo hi : Nat) : Prop :=
  ∀ n, lo ≤ n → n < hi → rand' n = rand n

/-! ## Lemmas: grid accesses, narrowing, tables -/

theorem SIZE_eq : SIZE = 16 := rfl
theorem MAP_SIZE_eq : MAP_SIZE = 256 := rfl

theorem cell_of_tile_at {tiles : List Tile} {i : Int} {t : Tile}
    (h : tile_at tiles i = .ok t) : cell tiles i = t.char_index := by
  simp [cell, h]

theorem tile_at_ok {tiles : List Tile} (hl : tiles.length = 256) {i : Int}
    (h0 : 0 ≤ i) (h1 : i < 256) : ∃ t, tile_at tiles i = .ok t := by
  unfold tile_at
  rw [if_pos h0]
  have hlt : i.toNat < tiles.length := by omega
  rw [List.getElem?_eq_getElem hlt]
  exact ⟨_, rfl⟩

theorem set_char_index_at_eq {tiles tiles' : List Tile} {x v : Int}
    (h : set_char_index_at tiles x v = .ok tiles') :
    tiles'.length = tiles.length ∧
      (∀ i, cell tiles' i = if i = x then v else cell tiles i) ∧
      (∀ i t', tile_at tiles' i = .ok t' → ∃ t, tile_at tiles i = .ok t ∧ t'.index = t.index) := by
  unfold set_char_index_at at h
  by_cases h0 : 0 ≤ x
  swap
  · simp [h0] at h
  rw [if_pos h0] at h
  cases hx : tiles[x.toNat]? with
  | none => simp [hx] at h
  | some tx =>
    simp only [hx, Except.ok.injEq] at h
    subst h
    have hlt : x.toNat < tiles.length := by
      by_contra hge
      rw [List.getElem?_eq_none (by omega)] at hx
      exact absurd hx (by simp)
    refine ⟨by simp, ?_, ?_⟩
    · intro i
      unfold cell tile_at
      by_cases hi : 0 ≤ i
      · simp only [if_pos hi]
        by_cases hix : i = x
        · subst hix
          simp [List.getElem?_set_self, hlt, Tile.char_index, Tile.set_char_index]
        · have hne : x.toNat ≠ i.toNat := by omega
          simp [List.getElem?_set_ne hne, hix]
      · have hix : i ≠ x := by omega
        simp [hi, hix]
    · intro i t' h
      unfold tile_at at h ⊢
      by_cases hi : 0 ≤ i
      · simp only [if_pos hi] at h ⊢
        by_cases hix : x.toNat = i.toNat
        · rw [← hix] at h ⊢
          simp [List.getElem?_set_self, hlt] at h
          refine ⟨tx, by simp [hx], ?_⟩
          rw [← h]; rfl
        · rw [List.getElem?_set_ne hix] at h
          exact ⟨t', h, rfl⟩
      · simp [hi] at h

theorem set_char_index_at_ok {tiles : List Tile} (hl : tiles.length = 256) {x : Int}
    (h0 : 0 ≤ x) (h1 : x < 256) (v : Int) :
    ∃ tiles', set_char_index_at tiles x v = .ok tiles' ∧ tiles'.length = 256 ∧
      (∀ i, cell tiles' i = if i = x then v else cell tiles i) ∧
      (∀ i t', tile_at tiles' i = .ok t' → ∃ t, tile_at tiles i = .ok t ∧ t'.index = t.index) := by
  have hlt : x.toNat < tiles.length := by omega
  have hset : set_char_index_at tiles x v
      = .ok (tiles.set x.toNat ((tiles[x.toNat]).set_char_index v)) := by
    unfold set_char_index_at
    rw [if_pos h0, List.getElem?_eq_getElem hlt]
  obtain ⟨e1, e2, e3⟩ := set_char_index_at_eq hset
  exact ⟨_, hset, by rw [e1, hl], e2, e3⟩

theorem Side.opp_opp (d : Side) : d.opp.opp = d := by cases d <;> rfl

theorem Side.nb_inRange {d : Side} {i : Int} (hi : InRange i) (hg : d.inGrid i = true) :
    InRange (d.nb i) := by
  unfold InRange at *
  cases d <;> simp [Side.inGrid, Side.nb] at hg ⊢ <;> omega

theorem Side.nb_back {d : Side} {i : Int} (hi : InRange i) (hg : d.inGrid i = true) :
    d.opp.inGrid (d.nb i) = true ∧ d.opp.nb (d.nb i) = i := by
  unfold InRange at *
  cases d <;> simp [Side.inGrid, Side.nb, Side.opp] at hg ⊢ <;> omega

theorem Side.nb_ne {d : Side} {i : Int} : d.nb i ≠ i := by
  cases d <;> simp [Side.nb]

theorem narrow_side_eq {tiles : List Tile} (hl : tiles.length = 256) (d : Side) {ti : Int}
    (hti : InRange ti) (boundary : Bool) (hb : boundary = !d.inGrid ti) (tv : TileVec) :
    narrow_side tiles boundary (d.nb ti) d.opp.has
        (fun src => src.filter (fun t => !d.has t.tile_index))
        (fun src => src.filter (fun t => d.has t.tile_index)) tv
      = .ok (tv.filter (fun t => side_ok tiles ti d t.tile_index)) := by
  unfold narrow_side side_ok
  cases hg : d.inGrid ti
  · simp [hb, hg]
  · have hr := Side.nb_inRange hti hg
    obtain ⟨t, ht⟩ := tile_at_ok hl hr.1 hr.2
    have hc := cell_of_tile_at ht
    simp only [hb, hg, ht, hc]
    by_cases h0 : t.char_index = 0
    · simp [h0]
    · cases hco : d.opp.has t.char_index <;> simp [h0, hco]

theorem tmod_SIZE {ti : Int} (h : 0 ≤ ti) : Int.tmod ti SIZE = ti % 16 :=
  Int.tmod_eq_emod h (by decide)

theorem narrowed_eq {tiles : List Tile} (hl : tiles.length = 256) {ti : Int}
    (hti : InRange ti) (tv : TileVec) :
    narrowed tiles ti tv = .ok (tv.filter (fun t => fits tiles ti t.tile_index)) := by
  have h0 : 0 ≤ ti := hti.1
  have b1 : decide ((Neighbors.ofIndex ti).top < 0) = !Side.top.inGrid ti := by
    rw [Bool.eq_iff_iff]; simp [Neighbors.ofIndex, Side.inGrid]
  have b2 : (Int.tmod ti SIZE == SIZE - 1) = !Side.right.inGrid ti := by
    rw [Bool.eq_iff_iff, tmod_SIZE h0]; simp [Side.inGrid, SIZE]
  have b3 : decide ((Neighbors.ofIndex ti).bottom ≥ MAP_SIZE) = !Side.bottom.inGrid ti := by
    rw [Bool.eq_iff_iff]; simp [Neighbors.ofIndex, Side.inGrid, MAP_SIZE, SIZE]
  have b4 : (Int.tmod ti SIZE == 0) = !Side.left.inGrid ti := by
    rw [Bool.eq_iff_iff, tmod_SIZE h0]; simp [Side.inGrid, SIZE]
  have e1 := fun tv => narrow_side_eq hl .top hti _ b1 tv
  have e2 := fun tv => narrow_side_eq hl .right hti _ b2 tv
  have e3 := fun tv => narrow_side_eq hl .bottom hti _ b3 tv
  have e4 := fun tv => narrow_side_eq hl .left hti _ b4 tv
  unfold narrowed
  have n1 : (Neighbors.ofIndex ti).top = Side.top.nb ti := rfl
  have n2 : (Neighbors.ofIndex ti).right = Side.right.nb ti := rfl
  have n3 : (Neighbors.ofIndex ti).bottom = Side.bottom.nb ti := rfl
  have n4 : (Neighbors.ofIndex ti).left = Side.left.nb ti := rfl
  simp only [n1, n2, n3, n4] at e1 e2 e3 e4 ⊢
  show (narrow_side tiles _ (Side.top.nb ti) Side.top.opp.has
      (fun src => src.filter (fun t => !Side.top.has t.tile_index))
      (fun src => src.filter (fun t => Side.top.has t.tile_index)) tv >>= fun tv1 =>
    narrow_side tiles _ (Side.right.nb ti) Side.right.opp.has
      (fun src => src.filter (fun t => !Side.right.has t.tile_index))
      (fun src => src.filter (fun t => Side.right.has t.tile_index)) tv1 >>= fun tv2 =>
    narrow_side tiles _ (Side.bottom.nb ti) Side.bottom.opp.has
      (fun src => src.filter (fun t => !Side.bottom.has t.tile_index))
      (fun src => src.filter (fun t => Side.bottom.has t.tile_index)) tv2 >>= fun tv3 =>
    narrow_side tiles _ (Side.left.nb ti) Side.left.opp.has
      (fun src => src.filter (fun t => !Side.left.has t.tile_index))
      (fun src => src.filter (fun t => Side.left.has t.tile_index)) tv3) = _
  rw [e1]
  simp only [bind, Except.bind]
  rw [e2]
  simp only [e3]
  rw [e4]
  simp only [List.filter_filter, fits]
  congr 2
  funext t
  simp only [Bool.and_assoc, Bool.and_comm, Bool.and_left_comm]

theorem foldl_push_filter (p : TileType → Bool) (l : List TileType) (init : TileVec) :
    l.foldl (fun ts t => if p t then ts ++ [t] else ts) init = init ++ l.filter p := by
  induction l generalizing init with
  | nil => simp
  | cons a l ih =>
    simp only [List.foldl_cons, ih, List.filter_cons]
    cases p a <;> simp

theorem weighted_tiles_eq (bit : Int) (tileset : TileVec) :
    weighted_tiles bit tileset
      = tileset ++ WEIGHTED_TILE_TYPES.filter (fun t => bit_on t.tile_index bit) :=
  foldl_push_filter _ _ _

theorem tableFor_new (d : Side) :
    tableFor d Map.new = WEIGHTED_TILE_TYPES.filter (fun t => d.opp.has t.tile_index) := by
  cases d <;> simp only [tableFor, Map.new, weighted_tiles_eq, List.nil_append] <;> rfl

theorem has_ne_zero {d : Side} {v : Int} (h : d.has v = true) : v ≠ 0 := by
  rintro rfl
  revert h
  cases d <;> decide

theorem every_openings_combination (bt br bb bl : Bool) :
    ∃ t ∈ WEIGHTED_TILE_TYPES, has_top_connection t.tile_index = bt ∧
      has_right_connection t.tile_index = br ∧ has_bottom_connection t.tile_index = bb ∧
      has_left_connection t.tile_index = bl := by
  revert bt br bb bl
  decide

theorem every_side_assignment (f : Side → Bool) :
    ∃ t ∈ WEIGHTED_TILE_TYPES, ∀ d : Side, d.has t.tile_index = f d := by
  obtain ⟨t, ht, h1, h2, h3, h4⟩ :=
    every_openings_combination (f .top) (f .right) (f .bottom) (f .left)
  refine ⟨t, ht, ?_⟩
  intro d
  cases d <;> assumption

theorem fits_iff {tiles : List Tile} {ti v : Int} :
    fits tiles ti v = true ↔ ∀ d : Side, side_ok tiles ti d v = true := by
  unfold fits
  simp only [Bool.and_eq_true]
  constructor
  · rintro ⟨⟨⟨h1, h2⟩, h3⟩, h4⟩ d
    cases d <;> assumption
  · intro h
    exact ⟨⟨⟨h .top, h .right⟩, h .bottom⟩, h .left⟩

theorem pick_ok {tv : TileVec} (h : tv ≠ []) (r : Nat) :
    ∃ t ∈ tv, pick tv r = .ok t.tile_index := by
  have hpos : 0 < tv.length := List.length_pos.mpr h
  have hlt : r % tv.length < tv.length := Nat.mod_lt _ hpos
  refine ⟨tv[r % tv.length], List.getElem_mem _, ?_⟩
  unfold pick
  rw [if_neg (by omega), List.getElem?_eq_getElem hlt]

theorem get_tile_ok (rand : Nat → Nat) {s : Run} (hl : s.map.tiles.length = 256) {ti : Int}
    (hti : InRange ti) {tv : TileVec} (hne : ∃ t ∈ tv, fits s.map.tiles ti t.tile_index = true) :
    ∃ v n, get_tile rand ti tv s
        = .ok (v, { s with drawn := s.drawn + 1, picks := s.picks ++ [(ti, n)] }) ∧
      0 < n ∧ (∃ t ∈ tv, t.tile_index = v) ∧ fits s.map.tiles ti v = true := by
  obtain ⟨t0, ht0, hf0⟩ := hne
  have hmem : t0 ∈ tv.filter (fun t => fits s.map.tiles ti t.tile_index) :=
    List.mem_filter.mpr ⟨ht0, hf0⟩
  have hne : tv.filter (fun t => fits s.map.tiles ti t.tile_index) ≠ [] :=
    List.ne_nil_of_mem hmem
  obtain ⟨t, ht, hp⟩ := pick_ok hne (rand s.drawn)
  refine ⟨t.tile_index, _, ?_, List.length_pos.mpr hne, ⟨t, (List.mem_filter.mp ht).1, rfl⟩,
    (List.mem_filter.mp ht).2⟩
  unfold get_tile
  rw [narrowed_eq hl hti]
  simp only [hp]

theorem center_index_eq : center_index = 136 := by decide

theorem Frame.frame_refl (tiles : List Tile) : Frame tiles tiles := fun _ _ => rfl

theorem Frame.frame_trans {a b c : List Tile} (h1 : Frame a b) (h2 : Frame b c) : Frame a c := by
  intro i hi
  have e1 := h1 i hi
  have e2 := h2 i (by rw [e1]; exact hi)
  rw [e2, e1]

theorem Frame.empty_of_empty {a b : List Tile} (h : Frame a b) {i : Int}
    (hi : cell b i = 0) : cell a i = 0 := by
  by_contra hne
  exact hne (by rw [← h i hne]; exact hi)

theorem Link.link_mono {tiles tiles' : List Tile} (hf : Frame tiles tiles') {a b : Int}
    (h : Link tiles a b) : Link tiles' a b := by
  obtain ⟨d, hg, hb, ha, hbk⟩ := h
  refine ⟨d, hg, hb, ?_, ?_⟩
  · rw [hf a (has_ne_zero ha)]; exact ha
  · rw [hf b (has_ne_zero hbk)]; exact hbk

theorem frame_of_update {tiles tiles' : List Tile} {x v : Int} (hx : cell tiles x = 0)
    (hcell : ∀ i, cell tiles' i = if i = x then v else cell tiles i) : Frame tiles tiles' := by
  intro i hi
  rw [hcell i, if_neg]
  rintro rfl
  exact hi hx

theorem Inv.assign {s : Run} (h : Inv s) {cur : Int} (hcur : InRange cur) (d : Side)
    (hg : d.inGrid cur = true) (hd : d.has (cell s.map.tiles cur) = true)
    (hx : cell s.map.tiles (d.nb cur) = 0) {v : Int} {n : Nat} (hn : 0 < n)
    (hv : d.opp.has v = true) (hfit : fits s.map.tiles (d.nb cur) v = true)
    {tiles' : List Tile} (hlen : tiles'.length = 256)
    (hcell : ∀ i, cell tiles' i = if i = d.nb cur then v else cell s.map.tiles i)
    (hidx : ∀ i t', tile_at tiles' i = .ok t' →
      ∃ t, tile_at s.map.tiles i = .ok t ∧ t'.index = t.index) :
    Inv { map := { s.map with tiles := tiles' }, drawn := s.drawn + 1, calls := s.calls,
          picks := s.picks ++ [(d.nb cur, n)], writes := s.writes ++ [(d.nb cur, 0)] } := by
  have hfr : Frame s.map.tiles tiles' := frame_of_update hx hcell
  have hxr : InRange (d.nb cur) := Side.nb_inRange hcur hg
  have hv0 : v ≠ 0 := has_ne_zero hv
  have hcx : cell tiles' (d.nb cur) = v := by rw [hcell, if_pos rfl]
  have hfits := fits_iff.mp hfit
  have hcurne : cur ≠ d.nb cur := fun e => Side.nb_ne e.symm
  have hccur : cell tiles' cur = cell s.map.tiles cur := by rw [hcell, if_neg hcurne]
  refine
    { tables := ?_, len := hlen, idx := ?_, consistent := ?_, reach := ?_, seed := ?_,
      calls_nodup := h.calls_nodup, calls_assigned := ?_, picks_pos := ?_, writes_empty := ?_,
      writes_nodup := ?_, writes_assigned := ?_, log_sync := ?_, assigned_written := ?_ }
  · intro d'
    have := h.tables d'
    cases d' <;> exact this
  · intro i t' ht'
    obtain ⟨t, ht, e⟩ := hidx i t' ht'
    rw [e]; exact h.idx i t ht
  · intro i hi hne d'
    show side_ok tiles' i d' (cell tiles' i) = true
    by_cases hix : i = d.nb cur
    · subst hix
      rw [hcx]
      have := hfits d'
      unfold side_ok at this ⊢
      cases hg' : d'.inGrid (d.nb cur)
      · simpa [hg'] using this
      · have hne' : d'.nb (d.nb cur) ≠ d.nb cur := Side.nb_ne
        simpa [hg', hcell (d'.nb (d.nb cur)), hne'] using this
    · have hci : cell tiles' i = cell s.map.tiles i := by rw [hcell, if_neg hix]
      rw [hci] at hne ⊢
      have hold := h.consistent i hi hne d'
      unfold side_ok at hold ⊢
      cases hg' : d'.inGrid i
      · simpa [hg'] using hold
      · by_cases hnx : d'.nb i = d.nb cur
        · have hb := Side.nb_back hi hg'
          rw [hnx] at hb
          have hf := hfits d'.opp
          unfold side_ok at hf
          rw [hb.1, hb.2] at hf
          simp only [if_true, if_pos hne, Side.opp_opp] at hf
          simp only [hg', if_true, hnx, hcx, if_pos hv0]
          rw [beq_iff_eq] at hf ⊢
          exact hf.symm
        · simpa [hg', hcell (d'.nb i), hnx] using hold
  · intro i hi hne
    show Relation.ReflTransGen (Link tiles') 136 i
    by_cases hix : i = d.nb cur
    · subst hix
      have hrc : Relation.ReflTransGen (Link tiles') 136 cur :=
        Relation.ReflTransGen.mono (fun a b => Link.link_mono hfr)
          (h.reach cur hcur (has_ne_zero hd))
      refine Relation.ReflTransGen.tail hrc ⟨d, hg, rfl, ?_, ?_⟩
      · rw [hccur]; exact hd
      · rw [hcx]; exact hv
    · have hci : cell tiles' i = cell s.map.tiles i := by rw [hcell, if_neg hix]
      rw [hci] at hne
      exact Relation.ReflTransGen.mono (fun a b => Link.link_mono hfr) (h.reach i hi hne)
  · show cell tiles' 136 = 15
    rw [hfr 136 (by rw [h.seed]; decide), h.seed]
  · intro c hc
    obtain ⟨h1, h2⟩ := h.calls_assigned c hc
    refine ⟨h1, ?_⟩
    show cell tiles' c ≠ 0
    rw [hfr c h2]; exact h2
  · intro p hp
    rcases List.mem_append.mp hp with hp | hp
    · exact h.picks_pos p hp
    · rw [List.mem_singleton.mp hp]; exact hn
  · intro w hw
    rcases List.mem_append.mp hw with hw | hw
    · exact h.writes_empty w hw
    · rw [List.mem_singleton.mp hw]
  · show ((s.writes ++ [(d.nb cur, 0)]).map Prod.fst).Nodup
    rw [List.map_append, List.nodup_append]
    refine ⟨h.writes_nodup, by simp, ?_⟩
    intro a ha hb
    simp only [List.map_cons, List.map_nil, List.mem_singleton] at hb
    obtain ⟨w, hw, rfl⟩ := List.mem_map.mp ha
    have := (h.writes_assigned w hw).2.1
    rw [hb] at this
    exact this hx
  · intro w hw
    show InRange w.1 ∧ cell tiles' w.1 ≠ 0 ∧ w.1 ≠ 136
    rcases List.mem_append.mp hw with hw | hw
    · obtain ⟨h1, h2, h3⟩ := h.writes_assigned w hw
      exact ⟨h1, by rw [hfr _ h2]; exact h2, h3⟩
    · rw [List.mem_singleton.mp hw]
      refine ⟨hxr, by rw [hcx]; exact hv0, ?_⟩
      intro e
      simp only at e
      rw [e, h.seed] at hx
      exact absurd hx (by decide)
  · show (s.picks ++ [(d.nb cur, n)]).map Prod.fst = (s.writes ++ [(d.nb cur, 0)]).map Prod.fst ∧
      s.drawn + 1 = (s.picks ++ [(d.nb cur, n)]).length
    simp [h.log_sync.1, h.log_sync.2]
  · intro i hi
    change cell tiles' i ≠ 0 at hi
    show i = 136 ∨ i ∈ (s.writes ++ [(d.nb cur, 0)]).map Prod.fst
    rw [List.map_append, List.mem_append]
    by_cases hix : i = d.nb cur
    · right; right; simp [hix]
    · rw [hcell, if_neg hix] at hi
      rcases h.assigned_written i hi with h1 | h1
      · exact Or.inl h1
      · exact Or.inr (Or.inl h1)

theorem Filling.start {s0 : Run} (h : Inv s0) : Filling s0 s0 [] where
  inv := h
  calls := rfl
  frame := Frame.frame_refl _
  nodup := List.nodup_nil
  fresh := by simp
  recorded := fun i h0 h1 => absurd h0 h1

theorem exists_fitting {s : Run} (h : Inv s) {cur : Int} (hcur : InRange cur) (d : Side)
    (hg : d.inGrid cur = true) (hd : d.has (cell s.map.tiles cur) = true) :
    ∃ t ∈ tableFor d s.map, fits s.map.tiles (d.nb cur) t.tile_index = true := by
  obtain ⟨t, htW, ht⟩ := every_side_assignment (fun d' =>
    if d'.inGrid (d.nb cur) then
      if cell s.map.tiles (d'.nb (d.nb cur)) ≠ 0 then
        d'.opp.has (cell s.map.tiles (d'.nb (d.nb cur)))
      else false
    else false)
  have hb := Side.nb_back hcur hg
  refine ⟨t, ?_, ?_⟩
  · rw [h.tables d, tableFor_new, List.mem_filter]
    refine ⟨htW, ?_⟩
    rw [ht d.opp, hb.1, hb.2, Side.opp_opp]
    simp [has_ne_zero hd, hd]
  · rw [fits_iff]
    intro d'
    unfold side_ok
    rw [ht d']
    cases d'.inGrid (d.nb cur)
    · simp
    · by_cases h0 : cell s.map.tiles (d'.nb (d.nb cur)) = 0 <;> simp [h0]

theorem grow_spec (rand : Nat → Nat) {s0 s : Run} {acc : List Int} (hJ : Filling s0 s acc)
    {cur : Int} (hcur : InRange cur) (d : Side) {guard : Bool}
    (hguard : guard = (d.inGrid cur && d.has (cell s0.map.tiles cur))) :
    ∃ s' acc', grow rand guard (d.nb cur) (tableFor d) (s, acc) = .ok (s', acc') ∧
      Filling s0 s' acc' ∧ Frame s.map.tiles s'.map.tiles ∧
      (guard = true → cell s'.map.tiles (d.nb cur) ≠ 0) := by
  cases guard
  · exact ⟨s, acc, by simp [grow], hJ, Frame.frame_refl _, by simp⟩
  · have hgd := hguard.symm
    rw [Bool.and_eq_true] at hgd
    obtain ⟨hg, hd0⟩ := hgd
    have hd : d.has (cell s.map.tiles cur) = true := by
      rw [hJ.frame cur (has_ne_zero hd0)]; exact hd0
    have hxr := Side.nb_inRange hcur hg
    obtain ⟨t, ht⟩ := tile_at_ok hJ.inv.len hxr.1 hxr.2
    have hct := cell_of_tile_at ht
    by_cases h0 : t.char_index = 0
    · have hx : cell s.map.tiles (d.nb cur) = 0 := by rw [hct]; exact h0
      obtain ⟨v, n, hget, hn, ⟨tv, htv, htvv⟩, hfit⟩ :=
        get_tile_ok rand hJ.inv.len hxr (exists_fitting hJ.inv hcur d hg hd)
      have hv : d.opp.has v = true := by
        rw [hJ.inv.tables d, tableFor_new, List.mem_filter] at htv
        rw [← htvv]; exact htv.2
      obtain ⟨tiles', hset, hlen, hcell, hidx⟩ :=
        set_char_index_at_ok hJ.inv.len hxr.1 hxr.2 v
      have hinv := hJ.inv.assign hcur d hg hd hx hn hv hfit hlen hcell hidx
      have hfr : Frame s.map.tiles tiles' := frame_of_update hx hcell
      have hcx : cell tiles' (d.nb cur) = v := by rw [hcell, if_pos rfl]
      refine ⟨{ map := { s.map with tiles := tiles' }, drawn := s.drawn + 1, calls := s.calls,
                picks := s.picks ++ [(d.nb cur, n)], writes := s.writes ++ [(d.nb cur, 0)] },
        acc ++ [d.nb cur], ?_, ?_, hfr, ?_⟩
      · simp only [grow, if_true, ht, h0, hget, hset]
      · refine
          { inv := hinv, calls := hJ.calls, frame := hJ.frame.frame_trans hfr, nodup := ?_,
            fresh := ?_, recorded := ?_ }
        · rw [List.nodup_append]
          refine ⟨hJ.nodup, by simp, ?_⟩
          intro a ha hb
          rw [List.mem_singleton] at hb
          subst hb
          exact (hJ.fresh _ ha).2.2 hx
        · intro i hi
          rcases List.mem_append.mp hi with hi | hi
          · obtain ⟨h1, h2, h3⟩ := hJ.fresh i hi
            exact ⟨h1, h2, by show cell tiles' i ≠ 0; rw [hfr i h3]; exact h3⟩
          · rw [List.mem_singleton] at hi
            subst hi
            refine ⟨hxr, hJ.frame.empty_of_empty hx, ?_⟩
            show cell tiles' (d.nb cur) ≠ 0
            rw [hcx]; exact has_ne_zero hv
        · intro i hi0 hi1
          change cell tiles' i ≠ 0 at hi1
          rw [List.mem_append, List.mem_singleton]
          by_cases hix : i = d.nb cur
          · exact Or.inr hix
          · rw [hcell, if_neg hix] at hi1
            exact Or.inl (hJ.recorded i hi0 hi1)
      · intro _
        show cell tiles' (d.nb cur) ≠ 0
        rw [hcx]; exact has_ne_zero hv
    · refine ⟨s, acc, ?_, hJ, Frame.frame_refl _, ?_⟩
      · simp [grow, ht, h0]
      · intro _
        rw [hct]; exact h0

theorem fill_spec (rand : Nat → Nat) {s0 : Run} (h : Inv s0) {cur : Int} (hcur : InRange cur) :
    ∃ s1 idxs, fill rand cur s0 = .ok (s1, idxs) ∧ Filling s0 s1 idxs ∧
      (∀ d : Side, d.inGrid cur = true → d.has (cell s0.map.tiles cur) = true →
        cell s1.map.tiles (d.nb cur) ≠ 0) := by
  obtain ⟨t, ht⟩ := tile_at_ok h.len hcur.1 hcur.2
  have hti : t.index = cur := h.idx cur t ht
  have hchi : t.tile_type.tile_index = cell s0.map.tiles cur := (cell_of_tile_at ht).symm
  have h0 : 0 ≤ cur := hcur.1
  have g1 : (decide ((Neighbors.ofIndex cur).top ≥ 0) && has_top_connection t.tile_type.tile_index)
      = (Side.top.inGrid cur && Side.top.has (cell s0.map.tiles cur)) := by
    rw [hchi]; rfl
  have g2 : (Int.tmod t.index SIZE != SIZE - 1 && has_right_connection t.tile_type.tile_index)
      = (Side.right.inGrid cur && Side.right.has (cell s0.map.tiles cur)) := by
    rw [hchi, hti, tmod_SIZE h0]
    congr 1
    rw [Bool.eq_iff_iff]; simp [Side.inGrid, SIZE]
  have g3 : (decide ((Neighbors.ofIndex cur).bottom < MAP_SIZE) &&
        has_bottom_connection t.tile_type.tile_index)
      = (Side.bottom.inGrid cur && Side.bottom.has (cell s0.map.tiles cur)) := by
    rw [hchi]; rfl
  have g4 : (decide (Int.tmod t.index SIZE > 0) && has_left_connection t.tile_type.tile_index)
      = (Side.left.inGrid cur && Side.left.has (cell s0.map.tiles cur)) := by
    rw [hchi, hti, tmod_SIZE h0]
    congr 1
    rw [Bool.eq_iff_iff]; simp [Side.inGrid]; omega
  obtain ⟨s1, a1, e1, J1, f1, c1⟩ := grow_spec rand (Filling.start h) hcur .top g1
  obtain ⟨s2, a2, e2, J2, f2, c2⟩ := grow_spec rand J1 hcur .right g2
  obtain ⟨s3, a3, e3, J3, f3, c3⟩ := grow_spec rand J2 hcur .bottom g3
  obtain ⟨s4, a4, e4, J4, f4, c4⟩ := grow_spec rand J3 hcur .left g4
  refine ⟨s4, a4, ?_, J4, ?_⟩
  · unfold fill
    simp only [ht]
    have e1' : grow rand (decide ((Neighbors.ofIndex cur).top ≥ 0) &&
        has_top_connection t.tile_type.tile_index) (Neighbors.ofIndex cur).top
        Map.top_tiles (s0, []) = .ok (s1, a1) := e1
    have e2' : grow rand (Int.tmod t.index SIZE != SIZE - 1 &&
        has_right_connection t.tile_type.tile_index) (Neighbors.ofIndex cur).right
        Map.right_tiles (s1, a1) = .ok (s2, a2) := e2
    have e3' : grow rand (decide ((Neighbors.ofIndex cur).bottom < MAP_SIZE) &&
        has_bottom_connection t.tile_type.tile_index) (Neighbors.ofIndex cur).bottom
        Map.bottom_tiles (s2, a2) = .ok (s3, a3) := e3
    have e4' : grow rand (decide (Int.tmod t.index SIZE > 0) &&
        has_left_connection t.tile_type.tile_index) (Neighbors.ofIndex cur).left
        Map.left_tiles (s3, a3) = .ok (s4, a4) := e4
    rw [e1']
    simp only [bind, Except.bind]
    rw [e2']
    simp only [e3']
    rw [e4']
  · intro d hg hd
    have hgd : (d.inGrid cur && d.has (cell s0.map.tiles cur)) = true := by simp [hg, hd]
    cases d
    · have := c1 (g1.trans hgd)
      rw [← ((f2.frame_trans f3).frame_trans f4) _ this] at this
      exact this
    · have := c2 (g2.trans hgd)
      rw [← (f3.frame_trans f4) _ this] at this
      exact this
    · have := c3 (g3.trans hgd)
      rw [← f4 _ this] at this
      exact this
    · exact c4 (g4.trans hgd)

theorem emptyCount_le {a b : List Tile} (h : Frame a b) : emptyCount b ≤ emptyCount a := by
  apply Finset.card_le_card
  intro i
  simp only [Finset.mem_filter, Finset.mem_range]
  exact fun ⟨hi, hb⟩ => ⟨hi, h.empty_of_empty hb⟩

theorem emptyCount_lt {a b : List Tile} (h : Frame a b) {x : Int} (hx : InRange x)
    (h0 : cell a x = 0) (h1 : cell b x ≠ 0) : emptyCount b < emptyCount a := by
  apply Finset.card_lt_card
  rw [Finset.ssubset_iff_of_subset]
  · refine ⟨x.toNat, ?_, ?_⟩
    · have : ((x.toNat : Nat) : Int) = x := Int.toNat_of_nonneg hx.1
      simp only [Finset.mem_filter, Finset.mem_range, this]
      exact ⟨by have := hx.2; omega, h0⟩
    · have : ((x.toNat : Nat) : Int) = x := Int.toNat_of_nonneg hx.1
      simp only [Finset.mem_filter, Finset.mem_range, this, not_and]
      exact fun _ => h1
  · intro i
    simp only [Finset.mem_filter, Finset.mem_range]
    exact fun ⟨hi, hb⟩ => ⟨hi, h.empty_of_empty hb⟩

theorem Closed.closed_mono {a b : List Tile} (h : Frame a b) {c : Int} (hc : cell a c ≠ 0)
    (hcl : Closed a c) : Closed b c := by
  intro d hg hd
  rw [h c hc] at hd
  have := hcl d hg hd
  rw [h _ this]; exact this

theorem Inv.enter {s : Run} (h : Inv s) {cur : Int} (hcur : InRange cur)
    (hc : cell s.map.tiles cur ≠ 0) (hn : cur ∉ s.calls) :
    Inv { s with calls := s.calls ++ [cur] } where
  tables := h.tables
  len := h.len
  idx := h.idx
  consistent := h.consistent
  reach := h.reach
  seed := h.seed
  calls_nodup := by
    show (s.calls ++ [cur]).Nodup
    rw [List.nodup_append]
    refine ⟨h.calls_nodup, by simp, ?_⟩
    intro a ha hb
    rw [List.mem_singleton] at hb
    subst hb
    exact hn ha
  calls_assigned := by
    intro c hc'
    rcases List.mem_append.mp hc' with hc' | hc'
    · exact h.calls_assigned c hc'
    · rw [List.mem_singleton] at hc'
      subst hc'
      exact ⟨hcur, hc⟩
  picks_pos := h.picks_pos
  writes_empty := h.writes_empty
  writes_nodup := h.writes_nodup
  writes_assigned := h.writes_assigned
  log_sync := h.log_sync
  assigned_written := h.assigned_written

theorem generate_list_spec (rand : Nat → Nat) (fuel : Nat)
    (ih : ∀ (s : Run) (cur : Int), Inv s → InRange cur → cell s.map.tiles cur ≠ 0 →
      cur ∉ s.calls → emptyCount s.map.tiles < fuel →
      ∃ s', generate_tiles rand fuel cur s = .ok s' ∧ Generated s s' cur)
    (idxs : List Int) :
    ∀ s : Run, Inv s → idxs.Nodup →
      (∀ i ∈ idxs, InRange i ∧ cell s.map.tiles i ≠ 0 ∧ i ∉ s.calls) →
      (idxs ≠ [] → emptyCount s.map.tiles < fuel) →
      ∃ s', idxs.foldlM (fun acc i => generate_tiles rand fuel i acc) s = .ok s' ∧
        GeneratedList s s' idxs := by
  induction idxs with
  | nil =>
    intro s hs _ _ _
    exact ⟨s, rfl, ⟨hs, Frame.frame_refl _, ⟨[], by simp⟩, fun _ h => h, by simp, fun _ h => Or.inl h,
      fun i h0 h1 => absurd h0 h1, fun c h hn => absurd h hn⟩⟩
  | cons i rest ihl =>
    intro s hs hnd hpre hfuel
    have hfu := hfuel (by simp)
    obtain ⟨hir, hic, hin⟩ := hpre i (List.mem_cons_self _ _)
    obtain ⟨s2, e2, G2⟩ := ih s i hs hir hic hin hfu
    have hnd' := List.nodup_cons.mp hnd
    obtain ⟨s', e', hL⟩ := ihl s2 G2.inv hnd'.2
      (by
        intro j hj
        obtain ⟨hjr, hjc, hjn⟩ := hpre j (List.mem_cons_of_mem _ hj)
        refine ⟨hjr, by rw [G2.frame j hjc]; exact hjc, ?_⟩
        intro hmem
        rcases G2.calls_new j hmem with h | h | h
        · exact hjn h
        · subst h; exact hnd'.1 hj
        · exact hjc h)
      (fun _ => lt_of_le_of_lt (emptyCount_le G2.frame) hfu)
    refine ⟨s', ?_, ?_⟩
    · rw [List.foldlM_cons, e2]
      exact e'
    · refine
        { inv := hL.inv, frame := G2.frame.frame_trans hL.frame,
          calls_prefix := by
            obtain ⟨n1, h1⟩ := G2.calls_prefix
            obtain ⟨n2, h2⟩ := hL.calls_prefix
            exact ⟨i :: n1 ++ n2, by rw [h2, h1]; simp⟩
          calls_mono := fun c hc => hL.calls_mono c (G2.calls_mono c hc),
          called := ?_, calls_new := ?_, visited := ?_, closed := ?_ }
      · intro j hj
        rcases List.mem_cons.mp hj with h | h
        · subst h; exact hL.calls_mono _ G2.calls_cur
        · exact hL.called j h
      · intro c hc
        rcases hL.calls_new c hc with h | h | h
        · rcases G2.calls_new c h with h | h | h
          · exact Or.inl h
          · exact Or.inr (Or.inl (by rw [h]; exact List.mem_cons_self _ _))
          · exact Or.inr (Or.inr h)
        · exact Or.inr (Or.inl (List.mem_cons_of_mem _ h))
        · exact Or.inr (Or.inr (G2.frame.empty_of_empty h))
      · intro j h0 h1
        by_cases h2 : cell s2.map.tiles j = 0
        · exact hL.visited j h2 h1
        · exact hL.calls_mono j (G2.visited j h0 h2)
      · intro c hc hn
        by_cases h2 : c ∈ s2.calls
        · exact Closed.closed_mono hL.frame (G2.inv.calls_assigned c h2).2 (G2.closed c h2 hn)
        · exact hL.closed c hc h2

theorem generate_tiles_spec (rand : Nat → Nat) (fuel : Nat) :
    ∀ (s : Run) (cur : Int), Inv s → InRange cur → cell s.map.tiles cur ≠ 0 →
      cur ∉ s.calls → emptyCount s.map.tiles < fuel →
      ∃ s', generate_tiles rand fuel cur s = .ok s' ∧ Generated s s' cur := by
  induction fuel with
  | zero => intro s cur _ _ _ _ h; exact absurd h (Nat.not_lt_zero _)
  | succ fuel ih =>
    intro s cur hs hcur hc hn hfuel
    have hs0 := hs.enter hcur hc hn
    obtain ⟨s1, idxs, e1, F, hclosed⟩ := fill_spec rand hs0 hcur
    have hcalls : s1.calls = s.calls ++ [cur] := F.calls
    obtain ⟨s', e', hL⟩ := generate_list_spec rand fuel ih idxs s1 F.inv F.nodup
      (by
        intro i hi
        obtain ⟨hir, hi0, hi1⟩ := F.fresh i hi
        refine ⟨hir, hi1, ?_⟩
        rw [hcalls]
        intro hmem
        rcases List.mem_append.mp hmem with h | h
        · exact (hs.calls_assigned i h).2 hi0
        · rw [List.mem_singleton] at h
          subst h; exact hc hi0)
      (by
        intro hne
        obtain ⟨i, hi⟩ := List.exists_mem_of_ne_nil idxs hne
        obtain ⟨hir, hi0, hi1⟩ := F.fresh i hi
        have : emptyCount s1.map.tiles < emptyCount s.map.tiles :=
          emptyCount_lt F.frame hir hi0 hi1
        omega)
    refine ⟨s', ?_, ?_⟩
    · rw [generate_tiles, e1]
      exact e'
    · have hfr : Frame s.map.tiles s1.map.tiles := F.frame
      refine
        { inv := hL.inv, frame := hfr.frame_trans hL.frame,
          calls_prefix := by
            obtain ⟨n2, h2⟩ := hL.calls_prefix
            exact ⟨n2, by rw [h2, hcalls]; simp⟩
          calls_mono := ?_, calls_cur := ?_,
          calls_new := ?_, visited := ?_, closed := ?_ }
      · intro c h
        exact hL.calls_mono c (by rw [hcalls]; exact List.mem_append_left _ h)
      · exact hL.calls_mono cur (by rw [hcalls]; simp)
      · intro c h
        rcases hL.calls_new c h with h | h | h
        · rw [hcalls] at h
          rcases List.mem_append.mp h with h | h
          · exact Or.inl h
          · exact Or.inr (Or.inl (List.mem_singleton.mp h))
        · exact Or.inr (Or.inr (F.fresh c h).2.1)
        · exact Or.inr (Or.inr (hfr.empty_of_empty h))
      · intro i h0 h1
        by_cases h2 : cell s1.map.tiles i = 0
        · exact hL.visited i h2 h1
        · exact hL.called i (F.recorded i h0 h2)
      · intro c h hnc
        by_cases hcc : c = cur
        · subst hcc
          have hcl : Closed s1.map.tiles c := by
            intro d hg hd
            rw [hfr c hc] at hd
            exact hclosed d hg hd
          exact Closed.closed_mono hL.frame (by rw [hfr c hc]; exact hc) hcl
        · refine hL.closed c h ?_
          rw [hcalls]
          intro hmem
          rcases List.mem_append.mp hmem with h | h
          · exact hnc h
          · exact hcc (List.mem_singleton.mp h)

theorem foldl_push_map {α β : Type} (f : α → β) (l : List α) (init : List β) :
    l.foldl (fun ts i => ts ++ [f i]) init = init ++ l.map f := by
  induction l generalizing init with
  | nil => simp
  | cons a l ih => simp [ih]

theorem push_empty_tiles_eq (ts : List Tile) :
    push_empty_tiles ts = ts ++ (List.range 256).map
      (fun i : Nat => ({ index := (i : Int), tile_type := ⟨EMPTY_CHAR_INDEX, 0⟩ } : Tile)) :=
  foldl_push_map _ _ _

theorem length_pushed : (push_empty_tiles []).length = 256 := by
  simp [push_empty_tiles_eq]

theorem tile_at_pushed {i : Int} {t : Tile} (h : tile_at (push_empty_tiles []) i = .ok t) :
    t.index = i ∧ t.char_index = 0 := by
  unfold tile_at at h
  by_cases hi : 0 ≤ i
  · rw [if_pos hi, push_empty_tiles_eq, List.nil_append, List.getElem?_map] at h
    by_cases hlt : i.toNat < 256
    · rw [List.getElem?_range hlt] at h
      simp only [Option.map_some', Except.ok.injEq] at h
      subst h
      exact ⟨Int.toNat_of_nonneg hi, rfl⟩
    · rw [List.getElem?_eq_none (by simpa using hlt)] at h
      simp at h
  · simp [hi] at h

theorem cell_pushed (i : Int) : cell (push_empty_tiles []) i = 0 := by
  unfold cell
  cases h : tile_at (push_empty_tiles []) i with
  | error e => rfl
  | ok t => exact (tile_at_pushed h).2

theorem seeded_inv {tiles : List Tile}
    (hset : set_char_index_at (push_empty_tiles []) 136 15 = .ok tiles) :
    Inv (seeded tiles) ∧ ∀ i, cell tiles i = if i = 136 then 15 else 0 := by
  obtain ⟨hlen, hcell, hidx⟩ := set_char_index_at_eq hset
  have hc : ∀ i, cell tiles i = if i = 136 then 15 else 0 := by
    intro i; rw [hcell, cell_pushed]
  have hne : ∀ i, cell tiles i ≠ 0 → i = 136 := by
    intro i hi
    by_contra h
    rw [hc, if_neg h] at hi
    exact hi rfl
  refine ⟨?_, hc⟩
  refine
    { tables := fun d => by cases d <;> rfl,
      len := by show tiles.length = 256; rw [hlen, length_pushed], idx := ?_, consistent := ?_,
      reach := ?_, seed := by show cell tiles 136 = 15; rw [hc]; rfl, calls_nodup := List.nodup_nil,
      calls_assigned := by simp [seeded], picks_pos := by simp [seeded],
      writes_empty := by simp [seeded], writes_nodup := by simp [seeded],
      writes_assigned := by simp [seeded], log_sync := by simp [seeded],
      assigned_written := fun i hi => Or.inl (hne i hi) }
  · intro i t' ht'
    obtain ⟨t, ht, e⟩ := hidx i t' ht'
    rw [e]; exact (tile_at_pushed ht).1
  · intro i _ hi d
    have := hne i hi
    subst this
    show side_ok tiles 136 d (cell tiles 136) = true
    unfold side_ok
    have hg : d.inGrid 136 = true := by cases d <;> decide
    have hnb : cell tiles (d.nb 136) = 0 := by
      rw [hc, if_neg Side.nb_ne]
    simp [hg, hnb]
  · intro i _ hi
    have := hne i hi
    subst this
    exact Relation.ReflTransGen.refl

theorem emptyCount_seeded {tiles : List Tile} (hc : cell tiles 136 ≠ 0) :
    emptyCount tiles < 256 := by
  have : ((Finset.range 256).filter (fun i : Nat => cell tiles (i : Int) = 0))
      ⊂ Finset.range 256 := by
    rw [Finset.ssubset_iff_of_subset (Finset.filter_subset _ _)]
    refine ⟨136, by simp, ?_⟩
    simp only [Finset.mem_filter, not_and]
    intro _
    exact hc
  simpa [emptyCount] using Finset.card_lt_card this

theorem foldlM_fuel_mono {f g : Run → Int → Except Fault Run}
    (h : ∀ acc i r, f acc i = .ok r → g acc i = .ok r) (l : List Int) :
    ∀ s s', l.foldlM f s = .ok s' → l.foldlM g s = .ok s' := by
  induction l with
  | nil => intro s s' hs; exact hs
  | cons i l ih =>
    intro s s' hs
    rw [List.foldlM_cons] at hs ⊢
    cases hf : f s i with
    | error e => rw [hf] at hs; cases hs
    | ok r =>
      rw [hf] at hs
      rw [h s i r hf]
      exact ih r s' hs

theorem generate_tiles_fuel_succ (rand : Nat → Nat) (fuel : Nat) :
    ∀ (cur : Int) (s s' : Run), generate_tiles rand fuel cur s = .ok s' →
      generate_tiles rand (fuel + 1) cur s = .ok s' := by
  induction fuel with
  | zero => intro cur s s' h; cases h
  | succ fuel ih =>
    intro cur s s' h
    rw [generate_tiles] at h ⊢
    cases hf : fill rand cur { s with calls := s.calls ++ [cur] } with
    | error e => rw [hf] at h; cases h
    | ok r =>
      obtain ⟨s1, idxs⟩ := r
      rw [hf] at h
      exact foldlM_fuel_mono (fun acc i r hr => ih i acc r hr) idxs s1 s' h

theorem generate_tiles_fuel_mono (rand : Nat → Nat) {fuel fuel' : Nat} (hle : fuel ≤ fuel')
    {cur : Int} {s s' : Run} (h : generate_tiles rand fuel cur s = .ok s') :
    generate_tiles rand fuel' cur s = .ok s' := by
  induction hle with
  | refl => exact h
  | step _ ih => exact generate_tiles_fuel_succ rand _ cur s s' ih

/-- The run of `create` on a fresh map: it returns, and the final state is
related to the seeded state it starts the recursion from. -/
theorem create_spec (rand : Nat → Nat) :
    ∃ tiles s, set_char_index_at (push_empty_tiles []) 136 15 = .ok tiles ∧
      create rand Map.new = .ok s ∧
      (∀ fuel, 256 ≤ fuel → create_fuel fuel rand Map.new = .ok s) ∧
      Generated (seeded tiles) s 136 := by
  obtain ⟨tiles, hset, _⟩ :=
    set_char_index_at_ok length_pushed (x := 136) (by decide) (by decide) 15
  obtain ⟨hinv, hc⟩ := seeded_inv hset
  have h136 : cell tiles 136 ≠ 0 := by rw [hc]; decide
  obtain ⟨s, hs, G⟩ := generate_tiles_spec rand 256 (seeded tiles) 136 hinv
    ⟨by decide, by decide⟩ h136 (by simp [seeded]) (emptyCount_seeded h136)
  have hfuel : ∀ fuel, 256 ≤ fuel → create_fuel fuel rand Map.new = .ok s := by
    intro fuel hf
    have hgen := generate_tiles_fuel_mono rand hf hs
    unfold create_fuel
    have e : Int.tdiv SIZE 2 + Int.tdiv SIZE 2 * SIZE = 136 := by decide
    have hnew : Map.new.tiles = [] := rfl
    simp only [e, hnew, START_CHAR_INDEX, hset]
    exact hgen
  exact ⟨tiles, s, hset, hfuel 256 (le_refl _), hfuel, G⟩

/-! ## Consequences of the invariant -/

theorem cell_ne_zero_inRange {tiles : List Tile} (hl : tiles.length = 256) {i : Int}
    (h : cell tiles i ≠ 0) : InRange i := by
  unfold cell tile_at at h
  by_cases h0 : 0 ≤ i
  · refine ⟨h0, ?_⟩
    by_contra hge
    rw [if_pos h0, List.getElem?_eq_none (by omega)] at h
    exact h rfl
  · rw [if_neg h0] at h
    exact absurd rfl h

theorem Inv.matched {s : Run} (h : Inv s) {i : Int} (hi : InRange i)
    (hc : cell s.map.tiles i ≠ 0) (d : Side) (hg : d.inGrid i = true)
    (hn : cell s.map.tiles (d.nb i) ≠ 0) :
    d.has (cell s.map.tiles i) = d.opp.has (cell s.map.tiles (d.nb i)) := by
  have := h.consistent i hi hc d
  unfold side_ok at this
  simpa [hg, hn] using this

theorem Inv.boundary {s : Run} (h : Inv s) {i : Int} (hi : InRange i)
    (hc : cell s.map.tiles i ≠ 0) (d : Side) (hg : d.inGrid i = false) :
    d.has (cell s.map.tiles i) = false := by
  have := h.consistent i hi hc d
  unfold side_ok at this
  simpa [hg] using this

theorem Link.matchedStep {tiles : List Tile} (hl : tiles.length = 256) {a b : Int}
    (h : Link tiles a b) : MatchedStep tiles a b := by
  obtain ⟨d, hg, hb, ha, hbk⟩ := h
  have ha0 := has_ne_zero ha
  have hb0 := has_ne_zero hbk
  have har := cell_ne_zero_inRange hl ha0
  have hbr := cell_ne_zero_inRange hl hb0
  refine ⟨har.1, har.2, hbr.1, hbr.2, ha0, hb0, ?_⟩
  cases d
  · exact Or.inl ⟨hb, ha, hbk⟩
  · refine Or.inr (Or.inl ⟨hb, ?_, ha, hbk⟩)
    simpa [Side.inGrid] using hg
  · exact Or.inr (Or.inr (Or.inl ⟨hb, ha, hbk⟩))
  · refine Or.inr (Or.inr (Or.inr ⟨hb, ?_, ha, hbk⟩))
    simpa [Side.inGrid] using hg

theorem Inv.calls_length {s : Run} (h : Inv s) : s.calls.length ≤ 256 := by
  have hsub : (s.calls.map Int.toNat).toFinset ⊆ Finset.range 256 := by
    intro n hn
    rw [List.mem_toFinset, List.mem_map] at hn
    obtain ⟨c, hc, rfl⟩ := hn
    have := (h.calls_assigned c hc).1
    rw [Finset.mem_range]
    unfold InRange at this
    omega
  have hnd : (s.calls.map Int.toNat).Nodup := by
    refine List.Nodup.map_on ?_ h.calls_nodup
    intro a ha b hb hab
    have h1 := (h.calls_assigned a ha).1
    have h2 := (h.calls_assigned b hb).1
    unfold InRange at h1 h2
    omega
  have := Finset.card_le_card hsub
  rw [List.toFinset_card_of_nodup hnd, Finset.card_range, List.length_map] at this
  exact this

/-! ## Frame lemmas that hold in every state -/

theorem WritesOnlyEmpty.writes_refl (s : Run) : WritesOnlyEmpty s s :=
  ⟨fun _ _ => rfl, [], by simp, by simp⟩

theorem WritesOnlyEmpty.writes_trans {a b c : Run} (h1 : WritesOnlyEmpty a b)
    (h2 : WritesOnlyEmpty b c) : WritesOnlyEmpty a c := by
  obtain ⟨f1, n1, e1, w1⟩ := h1
  obtain ⟨f2, n2, e2, w2⟩ := h2
  refine ⟨Frame.frame_trans f1 f2, n1 ++ n2, by rw [e2, e1, List.append_assoc], ?_⟩
  intro w hw
  rcases List.mem_append.mp hw with h | h
  · exact w1 w h
  · exact w2 w h

theorem get_tile_eq {rand : Nat → Nat} {ti : Int} {tv : TileVec} {s s' : Run} {v : Int}
    (h : get_tile rand ti tv s = .ok (v, s')) :
    ∃ tv', narrowed s.map.tiles ti tv = .ok tv' ∧ pick tv' (rand s.drawn) = .ok v ∧
      s' = { s with drawn := s.drawn + 1, picks := s.picks ++ [(ti, tv'.length)] } := by
  unfold get_tile at h
  cases hn : narrowed s.map.tiles ti tv with
  | error e => rw [hn] at h; cases h
  | ok tv' =>
    simp only [hn] at h
    cases hp : pick tv' (rand s.drawn) with
    | error e => simp only [hp] at h; cases h
    | ok v' =>
      simp only [hp, Except.ok.injEq, Prod.mk.injEq] at h
      exact ⟨tv', rfl, by rw [hp, h.1], h.2.symm⟩

theorem grow_writes {rand : Nat → Nat} {guard : Bool} {target : Int} {table : Map → TileVec}
    {st st' : Run × List Int} (h : grow rand guard target table st = .ok st') :
    WritesOnlyEmpty st.1 st'.1 := by
  unfold grow at h
  cases guard
  · simp only [Bool.false_eq_true, if_false, Except.ok.injEq] at h
    subst h; exact WritesOnlyEmpty.writes_refl _
  · simp only [if_true] at h
    cases ht : tile_at st.1.map.tiles target with
    | error e => rw [ht] at h; cases h
    | ok t =>
      rw [ht] at h
      by_cases h0 : t.char_index = EMPTY_CHAR_INDEX
      · simp only [if_pos h0] at h
        cases hg : get_tile rand target (table st.1.map) st.1 with
        | error e => rw [hg] at h; cases h
        | ok r =>
          obtain ⟨v, sg⟩ := r
          rw [hg] at h
          obtain ⟨tv', _, _, hsg⟩ := get_tile_eq hg
          cases hset : set_char_index_at sg.map.tiles target v with
          | error e => simp only [hset] at h; cases h
          | ok tiles' =>
            simp only [hset, Except.ok.injEq] at h
            subst h
            have hmap : sg.map.tiles = st.1.map.tiles := by rw [hsg]
            rw [hmap] at hset
            obtain ⟨_, hcell, _⟩ := set_char_index_at_eq hset
            have hx : cell st.1.map.tiles target = 0 := by
              rw [cell_of_tile_at ht]; exact h0
            refine ⟨frame_of_update hx hcell, [(target, t.char_index)], ?_, ?_⟩
            · show sg.writes ++ _ = _
              rw [hsg]
            · intro w hw
              rw [List.mem_singleton.mp hw]
              exact h0
      · simp only [if_neg h0, Except.ok.injEq] at h
        subst h; exact WritesOnlyEmpty.writes_refl _

theorem fill_writes {rand : Nat → Nat} {cur : Int} {s : Run} {r : Run × List Int}
    (h : fill rand cur s = .ok r) : WritesOnlyEmpty s r.1 := by
  unfold fill at h
  cases ht : tile_at s.map.tiles cur with
  | error e => rw [ht] at h; cases h
  | ok t =>
    simp only [ht] at h
    generalize hg1 : grow rand _ _ Map.top_tiles (s, []) = r1 at h
    cases r1 with
    | error e => cases h
    | ok st1 =>
      simp only [bind, Except.bind] at h
      generalize hg2 : grow rand _ _ Map.right_tiles st1 = r2 at h
      cases r2 with
      | error e => cases h
      | ok st2 =>
        simp only at h
        generalize hg3 : grow rand _ _ Map.bottom_tiles st2 = r3 at h
        cases r3 with
        | error e => cases h
        | ok st3 =>
          simp only at h
          exact (((grow_writes hg1).writes_trans (grow_writes hg2)).writes_trans (grow_writes hg3)).writes_trans
            (grow_writes h)

theorem foldlM_writes {f : Run → Int → Except Fault Run}
    (hf : ∀ acc i r, f acc i = .ok r → WritesOnlyEmpty acc r) (l : List Int) :
    ∀ s s', l.foldlM f s = .ok s' → WritesOnlyEmpty s s' := by
  induction l with
  | nil =>
    intro s s' h
    simp only [List.foldlM_nil, pure, Except.pure, Except.ok.injEq] at h
    subst h; exact WritesOnlyEmpty.writes_refl _
  | cons i l ih =>
    intro s s' h
    rw [List.foldlM_cons] at h
    cases hfi : f s i with
    | error e => rw [hfi] at h; cases h
    | ok r =>
      rw [hfi] at h
      exact (hf s i r hfi).writes_trans (ih r s' h)

theorem generate_tiles_writes (rand : Nat → Nat) (fuel : Nat) :
    ∀ (cur : Int) (s s' : Run), generate_tiles rand fuel cur s = .ok s' →
      WritesOnlyEmpty s s' := by
  induction fuel with
  | zero => intro cur s s' h; cases h
  | succ fuel ih =>
    intro cur s s' h
    rw [generate_tiles] at h
    cases hf : fill rand cur { s with calls := s.calls ++ [cur] } with
    | error e => rw [hf] at h; cases h
    | ok r =>
      obtain ⟨s1, idxs⟩ := r
      rw [hf] at h
      have h1 : WritesOnlyEmpty s s1 := fill_writes hf
      exact h1.writes_trans (foldlM_writes (fun acc i r hr => ih i acc r hr) idxs s1 s' h)

/-! ## The draw of `get_tile` -/

theorem count_congr {p q : Nat → Prop} [DecidablePred p] [DecidablePred q]
    (h : ∀ n, p n ↔ q n) (N : Nat) : Nat.count p N = Nat.count q N := by
  rw [Nat.count_eq_card_filter_range, Nat.count_eq_card_filter_range]
  congr 1
  exact Finset.filter_congr (fun x _ => h x)

theorem selects_iff_mod {tv : TileVec} (hnd : (tv.map TileType.tile_index).Nodup) {j : Nat}
    (hj : j < tv.length) (r : Nat) :
    selects tv r (tv[j]).tile_index = true ↔ r ≡ j [MOD tv.length] := by
  have hpos : 0 < tv.length := by omega
  have hlt : r % tv.length < tv.length := Nat.mod_lt _ hpos
  have hpick : pick tv r = .ok (tv[r % tv.length]).tile_index := by
    unfold pick
    rw [if_neg (by omega), List.getElem?_eq_getElem hlt]
  unfold selects
  rw [hpick]
  simp only [beq_iff_eq]
  have hlt' : r % tv.length < (tv.map TileType.tile_index).length := by simpa using hlt
  have hj' : j < (tv.map TileType.tile_index).length := by simpa using hj
  have h1 : (tv.map TileType.tile_index)[r % tv.length] = (tv[r % tv.length]).tile_index := by
    simp
  have h2 : (tv.map TileType.tile_index)[j] = (tv[j]).tile_index := by simp
  rw [← h1, ← h2, hnd.getElem_inj_iff]
  unfold Nat.ModEq
  rw [Nat.mod_eq_of_lt hj]

theorem draws_selecting_uniform {tv : TileVec} (hnd : (tv.map TileType.tile_index).Nodup)
    (k : Nat) {t : TileType} (ht : t ∈ tv) : draws_selecting tv (k * tv.length) t = k := by
  obtain ⟨j, hj, rfl⟩ := List.getElem_of_mem ht
  have hpos : 0 < tv.length := by omega
  unfold draws_selecting
  rw [count_congr (selects_iff_mod hnd hj) (k * tv.length), Nat.count_modEq_card _ hpos]
  simp [Nat.mul_div_cancel _ hpos]

theorem narrow_side_sublist {tiles : List Tile} {boundary : Bool} {nb : Int} {back : Int → Bool}
    {closed opened : TileVec → TileVec} (hc : ∀ l, (closed l).Sublist l)
    (ho : ∀ l, (opened l).Sublist l) {tv tv' : TileVec}
    (h : narrow_side tiles boundary nb back closed opened tv = .ok tv') : tv'.Sublist tv := by
  unfold narrow_side at h
  split at h
  · cases h; exact hc tv
  · split at h
    · cases h
    · split at h
      · split at h <;> cases h
        · exact ho tv
        · exact hc tv
      · cases h; exact List.Sublist.refl tv

theorem narrowed_sublist {tiles : List Tile} {ti : Int} {tv tv' : TileVec}
    (h : narrowed tiles ti tv = .ok tv') : tv'.Sublist tv := by
  unfold narrowed at h
  simp only [bind, Except.bind] at h
  split at h
  · cases h
  · rename_i tv1 h1
    split at h
    · cases h
    · rename_i tv2 h2
      split at h
      · cases h
      · rename_i tv3 h3
        have s1 := narrow_side_sublist (fun l => List.filter_sublist l)
          (fun l => List.filter_sublist l) h1
        have s2 := narrow_side_sublist (fun l => List.filter_sublist l)
          (fun l => List.filter_sublist l) h2
        have s3 := narrow_side_sublist (fun l => List.filter_sublist l)
          (fun l => List.filter_sublist l) h3
        have s4 := narrow_side_sublist (fun l => List.filter_sublist l)
          (fun l => List.filter_sublist l) h
        exact ((s4.trans s3).trans s2).trans s1

theorem table_variants_nodup (d : Side) :
    ((tableFor d Map.new).map TileType.tile_index).Nodup := by
  cases d <;> decide

set_option maxRecDepth 100000 in
theorem first_narrowed :
    narrowed seed_grid 120 Map.new.top_tiles = .ok Map.new.top_tiles := by
  have hl : seed_grid.length = 256 := by simp [seed_grid, length_pushed]
  rw [narrowed_eq hl ⟨by decide, by decide⟩]
  congr 1

set_option maxRecDepth 100000 in
theorem seed_grid_eq :
    set_char_index_at (push_empty_tiles []) 136 START_CHAR_INDEX = .ok seed_grid := by
  rfl

/-! ## Lemmas for the postcondition of `get_tile` -/

theorem sideConstraint_iff (inGrid : Bool) (nbv : Int) (back : Int → Bool) (opening : Bool)
    (outside : Prop) (ho : outside ↔ inGrid = false) :
    ((if inGrid then (if nbv ≠ 0 then opening == back nbv else true) else !opening) = true) ↔
      SideConstraint outside nbv back opening := by
  unfold SideConstraint
  rw [ho]
  cases inGrid <;> cases opening <;> by_cases h0 : nbv = 0 <;> cases hb : back nbv <;>
    simp [h0, hb]

theorem fits_iff_sideConstraints (tiles : List Tile) (ti v : Int) :
    fits tiles ti v = true ↔ SideConstraints tiles ti v := by
  rw [fits_iff]
  unfold SideConstraints
  constructor
  · intro h
    refine ⟨?_, ?_, ?_, ?_⟩
    · exact (sideConstraint_iff (Side.top.inGrid ti) _ _ _ _
        (by simp only [Side.inGrid, SIZE, decide_eq_false_iff_not]; omega)).mp (h .top)
    · exact (sideConstraint_iff (Side.right.inGrid ti) _ _ _ _
        (by simp only [Side.inGrid, SIZE, decide_eq_false_iff_not]; omega)).mp (h .right)
    · exact (sideConstraint_iff (Side.bottom.inGrid ti) _ _ _ _
        (by simp only [Side.inGrid, SIZE, MAP_SIZE, decide_eq_false_iff_not]; omega)).mp
        (h .bottom)
    · exact (sideConstraint_iff (Side.left.inGrid ti) _ _ _ _
        (by simp only [Side.inGrid, SIZE, decide_eq_false_iff_not]; omega)).mp (h .left)
  · rintro ⟨h1, h2, h3, h4⟩ d
    cases d
    · exact (sideConstraint_iff (Side.top.inGrid ti) _ _ _ _
        (by simp only [Side.inGrid, SIZE, decide_eq_false_iff_not]; omega)).mpr h1
    · exact (sideConstraint_iff (Side.right.inGrid ti) _ _ _ _
        (by simp only [Side.inGrid, SIZE, decide_eq_false_iff_not]; omega)).mpr h2
    · exact (sideConstraint_iff (Side.bottom.inGrid ti) _ _ _ _
        (by simp only [Side.inGrid, SIZE, MAP_SIZE, decide_eq_false_iff_not]; omega)).mpr h3
    · exact (sideConstraint_iff (Side.left.inGrid ti) _ _ _ _
        (by simp only [Side.inGrid, SIZE, decide_eq_false_iff_not]; omega)).mpr h4

theorem pick_mem {tv : TileVec} {r : Nat} {v : Int} (h : pick tv r = .ok v) :
    ∃ t ∈ tv, t.tile_index = v := by
  unfold pick at h
  split at h
  · cases h
  · split at h
    · rename_i t ht
      cases h
      exact ⟨t, List.mem_iff_getElem?.mpr ⟨_, ht⟩, rfl⟩
    · cases h

theorem pick_at {tv : TileVec} {j : Nat} (hj : j < tv.length) :
    pick tv j = .ok (tv[j]).tile_index := by
  unfold pick
  rw [if_neg (by omega), Nat.mod_eq_of_lt hj, List.getElem?_eq_getElem hj]

theorem length_seed_grid : seed_grid.length = 256 := by
  simp [seed_grid, length_pushed]

theorem closed_after_create {s0 s : Run} (G : Generated s0 s 136) (hcalls : s0.calls = [])
    (h0 : ∀ i, cell s0.map.tiles i = if i = 136 then 15 else 0) {i : Int} (hi : InRange i)
    (hc : cell s.map.tiles i ≠ 0) (d : Side) (hd : d.has (cell s.map.tiles i) = true) :
    d.inGrid i = true ∧ cell s.map.tiles (d.nb i) ≠ 0 := by
  have hmem : i ∈ s.calls := by
    by_cases h136 : i = 136
    · rw [h136]; exact G.calls_cur
    · exact G.visited i (by rw [h0, if_neg h136]) hc
  have hcl := G.closed i hmem (by rw [hcalls]; simp)
  cases hg : d.inGrid i
  · have := G.inv.boundary hi hc d hg
    rw [hd] at this
    cases this
  · exact ⟨rfl, hcl d hg hd⟩

/-! ## The shape of one `if` statement of `generate_tiles`, in every state -/

theorem grow_cases {rand : Nat → Nat} {guard : Bool} {target : Int} {table : Map → TileVec}
    {st st' : Run × List Int} (h : grow rand guard target table st = .ok st') :
    st' = st ∨
    ∃ t v tv' tiles', guard = true ∧ tile_at st.1.map.tiles target = .ok t ∧
      t.char_index = EMPTY_CHAR_INDEX ∧
      narrowed st.1.map.tiles target (table st.1.map) = .ok tv' ∧
      pick tv' (rand st.1.drawn) = .ok v ∧
      set_char_index_at st.1.map.tiles target v = .ok tiles' ∧
      st' = ({ map := { st.1.map with tiles := tiles' }, drawn := st.1.drawn + 1,
               calls := st.1.calls, picks := st.1.picks ++ [(target, tv'.length)],
               writes := st.1.writes ++ [(target, EMPTY_CHAR_INDEX)] }, st.2 ++ [target]) := by
  unfold grow at h
  cases guard
  · simp only [Bool.false_eq_true, if_false, Except.ok.injEq] at h
    exact Or.inl h.symm
  · simp only [if_true] at h
    cases ht : tile_at st.1.map.tiles target with
    | error e => rw [ht] at h; cases h
    | ok t =>
      rw [ht] at h
      by_cases h0 : t.char_index = EMPTY_CHAR_INDEX
      · simp only [if_pos h0] at h
        cases hg : get_tile rand target (table st.1.map) st.1 with
        | error e => rw [hg] at h; cases h
        | ok r =>
          obtain ⟨v, sg⟩ := r
          rw [hg] at h
          obtain ⟨tv', hn, hp, hsg⟩ := get_tile_eq hg
          subst hsg
          cases hset : set_char_index_at st.1.map.tiles target v with
          | error e => simp only [hset] at h; cases h
          | ok tiles' =>
            simp only [hset, Except.ok.injEq] at h
            refine Or.inr ⟨t, v, tv', tiles', rfl, rfl, h0, hn, hp, hset, ?_⟩
            rw [← h, h0]
      · simp only [if_neg h0, Except.ok.injEq] at h
        exact Or.inl h.symm

theorem grow_of_cases {rand : Nat → Nat} {target : Int} {table : Map → TileVec}
    {st : Run × List Int} {t : Tile} {v : Int} {tv' : TileVec} {tiles' : List Tile}
    (ht : tile_at st.1.map.tiles target = .ok t) (h0 : t.char_index = EMPTY_CHAR_INDEX)
    (hn : narrowed st.1.map.tiles target (table st.1.map) = .ok tv')
    (hp : pick tv' (rand st.1.drawn) = .ok v)
    (hset : set_char_index_at st.1.map.tiles target v = .ok tiles') :
    grow rand true target table st =
      .ok ({ map := { st.1.map with tiles := tiles' }, drawn := st.1.drawn + 1,
             calls := st.1.calls, picks := st.1.picks ++ [(target, tv'.length)],
             writes := st.1.writes ++ [(target, EMPTY_CHAR_INDEX)] }, st.2 ++ [target]) := by
  unfold grow get_tile
  simp only [if_true, ht, h0, hn, hp, hset]

theorem fill_induct {rand : Nat → Nat} {P : Run → Run → Prop}
    (htrans : ∀ a b c, P a b → P b c → P a c)
    (hgrow : ∀ (guard : Bool) (target : Int) (d : Side) (st st' : Run × List Int),
      grow rand guard target (tableFor d) st = .ok st' → P st.1 st'.1)
    {cur : Int} {s : Run} {r : Run × List Int} (h : fill rand cur s = .ok r) : P s r.1 := by
  unfold fill at h
  cases ht : tile_at s.map.tiles cur with
  | error e => rw [ht] at h; cases h
  | ok t =>
    simp only [ht] at h
    generalize hg1 : grow rand _ _ Map.top_tiles (s, []) = r1 at h
    cases r1 with
    | error e => cases h
    | ok st1 =>
      simp only [bind, Except.bind] at h
      generalize hg2 : grow rand _ _ Map.right_tiles st1 = r2 at h
      cases r2 with
      | error e => cases h
      | ok st2 =>
        simp only at h
        generalize hg3 : grow rand _ _ Map.bottom_tiles st2 = r3 at h
        cases r3 with
        | error e => cases h
        | ok st3 =>
          simp only at h
          have p1 := hgrow _ _ .top _ _ hg1
          have p2 := hgrow _ _ .right _ _ hg2
          have p3 := hgrow _ _ .bottom _ _ hg3
          have p4 := hgrow _ _ .left _ _ h
          exact htrans _ _ _ (htrans _ _ _ (htrans _ _ _ p1 p2) p3) p4

theorem foldlM_induct {P : Run → Run → Prop} (hrefl : ∀ s, P s s)
    (htrans : ∀ a b c, P a b → P b c → P a c) {f : Run → Int → Except Fault Run}
    (hf : ∀ acc i r, f acc i = .ok r → P acc r) (l : List Int) :
    ∀ s s', l.foldlM f s = .ok s' → P s s' := by
  induction l with
  | nil =>
    intro s s' h
    simp only [List.foldlM_nil, pure, Except.pure, Except.ok.injEq] at h
    subst h; exact hrefl _
  | cons i l ih =>
    intro s s' h
    rw [List.foldlM_cons] at h
    cases hfi : f s i with
    | error e => rw [hfi] at h; cases h
    | ok r =>
      rw [hfi] at h
      exact htrans _ _ _ (hf s i r hfi) (ih r s' h)

theorem generate_tiles_induct {rand : Nat → Nat} {P : Run → Run → Prop} (hrefl : ∀ s, P s s)
    (htrans : ∀ a b c, P a b → P b c → P a c)
    (henter : ∀ (s : Run) (c : Int), P s { s with calls := s.calls ++ [c] })
    (hgrow : ∀ (guard : Bool) (target : Int) (d : Side) (st st' : Run × List Int),
      grow rand guard target (tableFor d) st = .ok st' → P st.1 st'.1)
    (fuel : Nat) :
    ∀ (cur : Int) (s s' : Run), generate_tiles rand fuel cur s = .ok s' → P s s' := by
  induction fuel with
  | zero => intro cur s s' h; cases h
  | succ fuel ih =>
    intro cur s s' h
    rw [generate_tiles] at h
    cases hf : fill rand cur { s with calls := s.calls ++ [cur] } with
    | error e => rw [hf] at h; cases h
    | ok r =>
      obtain ⟨s1, idxs⟩ := r
      rw [hf] at h
      have h1 := fill_induct htrans hgrow hf
      exact htrans _ _ _ (henter s cur)
        (htrans _ _ _ h1 (foldlM_induct hrefl htrans (fun acc i r hr => ih i acc r hr) idxs s1 s' h))

/-! ## The number of cells, and the variants written -/

theorem grow_length {rand : Nat → Nat} {guard : Bool} {target : Int} {table : Map → TileVec}
    {st st' : Run × List Int} (h : grow rand guard target table st = .ok st') :
    st'.1.map.tiles.length = st.1.map.tiles.length := by
  rcases grow_cases h with h | ⟨t, v, tv', tiles', _, _, _, _, _, hset, h⟩
  · rw [h]
  · rw [h]
    exact (set_char_index_at_eq hset).1

theorem generate_tiles_length {rand : Nat → Nat} {fuel : Nat} {cur : Int} {s s' : Run}
    (h : generate_tiles rand fuel cur s = .ok s') :
    s'.map.tiles.length = s.map.tiles.length :=
  generate_tiles_induct (P := fun a b => b.map.tiles.length = a.map.tiles.length)
    (fun _ => rfl) (fun _ _ _ h1 h2 => h2.trans h1) (fun _ _ => rfl)
    (fun _ _ _ _ _ hg => grow_length hg) fuel cur s s' h

theorem create_fuel_length {fuel : Nat} {rand : Nat → Nat} {m : Map} {s : Run}
    (h : create_fuel fuel rand m = .ok s) : s.map.tiles.length = m.tiles.length + 256 := by
  unfold create_fuel at h
  simp only at h
  split at h
  · cases h
  · rename_i tiles hset
    rw [generate_tiles_length h]
    show tiles.length = _
    rw [(set_char_index_at_eq hset).1, push_empty_tiles_eq]
    simp

theorem randomize_length (rand : Nat → Nat) (m : Map) :
    (randomize rand m).tiles.length = m.tiles.length + 256 := by
  unfold randomize
  simp only [foldl_push_map]
  have h : MAP_SIZE.toNat = 256 := by decide
  simp [h]

set_option maxRecDepth 100000 in
theorem create_zero_ok : ∃ s, create (fun _ => 0) Map.new = .ok s := by
  have hok : (create (fun _ => 0) Map.new).toBool = true := by decide
  cases h : create (fun _ => 0) Map.new with
  | error e => rw [h] at hok; cases hok
  | ok s => exact ⟨s, rfl⟩

set_option maxRecDepth 100000 in
theorem create_eq_generate (rand : Nat → Nat) :
    create rand Map.new = generate_tiles rand MAP_SIZE.toNat 136 (seeded seed_grid) := by
  unfold create create_fuel
  have e : Int.tdiv SIZE 2 + Int.tdiv SIZE 2 * SIZE = 136 := by decide
  have hnew : Map.new.tiles = [] := rfl
  simp only [e, hnew, seed_grid_eq]
  rfl

theorem direction_variant_range (d : Side) :
    ∀ t ∈ tableFor d Map.new, 1 ≤ t.tile_index ∧ t.tile_index ≤ 15 := by
  cases d <;> decide

theorem get_tile_direction_range {rand : Nat → Nat} {ti : Int} {d : Side} {s s' : Run}
    {v : Int} (h : get_tile rand ti (tableFor d Map.new) s = .ok (v, s')) :
    1 ≤ v ∧ v ≤ 15 := by
  obtain ⟨tv', hn, hp, _⟩ := get_tile_eq h
  obtain ⟨t, ht, rfl⟩ := pick_mem hp
  exact direction_variant_range d t ((narrowed_sublist hn).subset ht)

theorem grow_variants {rand : Nat → Nat} {guard : Bool} {target : Int} {d : Side}
    {st st' : Run × List Int} (h : grow rand guard target (tableFor d) st = .ok st')
    (htab : ∀ d, tableFor d st.1.map = tableFor d Map.new) :
    (∀ d, tableFor d st'.1.map = tableFor d Map.new) ∧
    ∀ i, cell st'.1.map.tiles i = cell st.1.map.tiles i ∨
      (cell st.1.map.tiles i = 0 ∧ 1 ≤ cell st'.1.map.tiles i ∧ cell st'.1.map.tiles i ≤ 15) := by
  rcases grow_cases h with h | ⟨t, v, tv', tiles', _, ht, h0, hn, hp, hset, h⟩
  · rw [h]
    exact ⟨htab, fun i => Or.inl rfl⟩
  · rw [h]
    refine ⟨fun d' => by have := htab d'; cases d' <;> exact this, ?_⟩
    intro i
    show cell tiles' i = _ ∨ (_ ∧ 1 ≤ cell tiles' i ∧ cell tiles' i ≤ 15)
    rw [(set_char_index_at_eq hset).2.1 i]
    by_cases hi : i = target
    · subst hi
      right
      rw [if_pos rfl]
      obtain ⟨t', ht', rfl⟩ := pick_mem hp
      rw [htab d] at hn
      exact ⟨by rw [cell_of_tile_at ht]; exact h0,
        direction_variant_range d t' ((narrowed_sublist hn).subset ht')⟩
    · left
      rw [if_neg hi]

theorem generate_tiles_variants {rand : Nat → Nat} {fuel : Nat} {cur : Int} {s s' : Run}
    (h : generate_tiles rand fuel cur s = .ok s')
    (htab : ∀ d, tableFor d s.map = tableFor d Map.new) :
    (∀ d, tableFor d s'.map = tableFor d Map.new) ∧
    ∀ i, cell s'.map.tiles i = cell s.map.tiles i ∨
      (cell s.map.tiles i = 0 ∧ 1 ≤ cell s'.map.tiles i ∧ cell s'.map.tiles i ≤ 15) := by
  refine generate_tiles_induct
    (P := fun a b => (∀ d, tableFor d a.map = tableFor d Map.new) →
      (∀ d, tableFor d b.map = tableFor d Map.new) ∧
      ∀ i, cell b.map.tiles i = cell a.map.tiles i ∨
        (cell a.map.tiles i = 0 ∧ 1 ≤ cell b.map.tiles i ∧ cell b.map.tiles i ≤ 15))
    ?_ ?_ ?_ ?_ fuel cur s s' h htab
  · exact fun a ha => ⟨ha, fun i => Or.inl rfl⟩
  · intro a b c hab hbc ha
    obtain ⟨hb, h1⟩ := hab ha
    obtain ⟨hc, h2⟩ := hbc hb
    refine ⟨hc, ?_⟩
    intro i
    rcases h2 i with e2 | ⟨z2, r2⟩
    · rcases h1 i with e1 | ⟨z1, r1⟩
      · exact Or.inl (e2.trans e1)
      · exact Or.inr ⟨z1, by rw [e2]; exact r1⟩
    · rcases h1 i with e1 | ⟨z1, r1⟩
      · exact Or.inr ⟨by rw [← e1]; exact z2, r2⟩
      · omega
  · exact fun a c ha => ⟨ha, fun i => Or.inl rfl⟩
  · exact fun _ _ _ _ _ hg ha => grow_variants hg ha

set_option maxRecDepth 100000 in
theorem first_get_tile :
    get_tile (fun _ => 0) 120 Map.new.top_tiles (seeded seed_grid)
      = .ok (4, { seeded seed_grid with drawn := 1, picks := [(120, 8)] }) := by
  unfold get_tile
  rw [show (seeded seed_grid).map.tiles = seed_grid from rfl, first_narrowed]
  rfl

/-! ## Dependence on the random source -/

theorem AgreeOn.sub {rand rand' : Nat → Nat} {lo hi lo' hi' : Nat}
    (h : AgreeOn rand rand' lo hi) (h1 : lo ≤ lo') (h2 : hi' ≤ hi) :
    AgreeOn rand rand' lo' hi' :=
  fun n a b => h n (by omega) (by omega)

theorem grow_det {rand : Nat → Nat} (rand' : Nat → Nat) {guard : Bool} {target : Int}
    {table : Map → TileVec} {st st' : Run × List Int}
    (h : grow rand guard target table st = .ok st') :
    st.1.drawn ≤ st'.1.drawn ∧
    (AgreeOn rand rand' st.1.drawn st'.1.drawn →
      grow rand' guard target table st = .ok st') := by
  unfold grow at h ⊢
  cases guard
  · simp only [Bool.false_eq_true, if_false, Except.ok.injEq] at h ⊢
    subst h
    exact ⟨le_refl _, fun _ => rfl⟩
  · simp only [if_true] at h ⊢
    cases ht : tile_at st.1.map.tiles target with
    | error e => rw [ht] at h; cases h
    | ok t =>
      simp only [ht] at h ⊢
      by_cases h0 : t.char_index = EMPTY_CHAR_INDEX
      · simp only [if_pos h0] at h ⊢
        cases hg : get_tile rand target (table st.1.map) st.1 with
        | error e => rw [hg] at h; cases h
        | ok r =>
          obtain ⟨v, sg⟩ := r
          obtain ⟨tv', hn, hp, hsg⟩ := get_tile_eq hg
          simp only [hg] at h
          have hdr : st'.1.drawn = st.1.drawn + 1 := by
            cases hset : set_char_index_at sg.map.tiles target v with
            | error e => simp only [hset] at h; cases h
            | ok tiles' =>
              simp only [hset, Except.ok.injEq] at h
              rw [← h, hsg]
          refine ⟨by omega, ?_⟩
          intro hA
          have hr : rand' st.1.drawn = rand st.1.drawn := hA _ (le_refl _) (by omega)
          have hg' : get_tile rand' target (table st.1.map) st.1 = .ok (v, sg) := by
            unfold get_tile
            simp only [hn, hr, hp, hsg]
          simp only [hg']
          exact h
      · simp only [if_neg h0, Except.ok.injEq] at h ⊢
        subst h
        exact ⟨le_refl _, fun _ => rfl⟩

theorem fill_det {rand : Nat → Nat} (rand' : Nat → Nat) {cur : Int} {s : Run} {r : Run × List Int}
    (h : fill rand cur s = .ok r) :
    s.drawn ≤ r.1.drawn ∧ (AgreeOn rand rand' s.drawn r.1.drawn → fill rand' cur s = .ok r) := by
  unfold fill at h ⊢
  cases ht : tile_at s.map.tiles cur with
  | error e => rw [ht] at h; cases h
  | ok t =>
    simp only [ht] at h ⊢
    generalize hg1 : grow rand _ _ Map.top_tiles (s, []) = r1 at h
    cases r1 with
    | error e => cases h
    | ok st1 =>
      simp only [bind, Except.bind] at h ⊢
      generalize hg2 : grow rand _ _ Map.right_tiles st1 = r2 at h
      cases r2 with
      | error e => cases h
      | ok st2 =>
        simp only at h
        generalize hg3 : grow rand _ _ Map.bottom_tiles st2 = r3 at h
        cases r3 with
        | error e => cases h
        | ok st3 =>
          simp only at h
          obtain ⟨m1, d1⟩ := grow_det rand' hg1
          obtain ⟨m2, d2⟩ := grow_det rand' hg2
          obtain ⟨m3, d3⟩ := grow_det rand' hg3
          obtain ⟨m4, d4⟩ := grow_det rand' h
          have m1' : s.drawn ≤ st1.1.drawn := m1
          refine ⟨by omega, ?_⟩
          intro hA
          rw [d1 (hA.sub (le_refl _) (by omega))]
          simp only
          rw [d2 (hA.sub (by omega) (by omega))]
          simp only
          rw [d3 (hA.sub (by omega) (by omega))]
          simp only
          exact d4 (hA.sub (by omega) (le_refl _))

theorem foldlM_det (rand rand' : Nat → Nat) {f f' : Run → Int → Except Fault Run}
    (hf : ∀ acc i r, f acc i = .ok r →
      acc.drawn ≤ r.drawn ∧ (AgreeOn rand rand' acc.drawn r.drawn → f' acc i = .ok r))
    (l : List Int) :
    ∀ s s', l.foldlM f s = .ok s' →
      s.drawn ≤ s'.drawn ∧ (AgreeOn rand rand' s.drawn s'.drawn → l.foldlM f' s = .ok s') := by
  induction l with
  | nil =>
    intro s s' h
    simp only [List.foldlM_nil, pure, Except.pure, Except.ok.injEq] at h
    subst h
    exact ⟨le_refl _, fun _ => rfl⟩
  | cons i l ih =>
    intro s s' h
    rw [List.foldlM_cons] at h
    cases hfi : f s i with
    | error e => rw [hfi] at h; cases h
    | ok r =>
      rw [hfi] at h
      obtain ⟨m1, d1⟩ := hf s i r hfi
      obtain ⟨m2, d2⟩ := ih r s' h
      refine ⟨by omega, ?_⟩
      intro hA
      rw [List.foldlM_cons, d1 (hA.sub (le_refl _) m2)]
      exact d2 (hA.sub m1 (le_refl _))

theorem generate_tiles_det {rand : Nat → Nat} (rand' : Nat → Nat) (fuel : Nat) :
    ∀ (cur : Int) (s s' : Run), generate_tiles rand fuel cur s = .ok s' →
      s.drawn ≤ s'.drawn ∧
      (AgreeOn rand rand' s.drawn s'.drawn → generate_tiles rand' fuel cur s = .ok s') := by
  induction fuel with
  | zero => intro cur s s' h; cases h
  | succ fuel ih =>
    intro cur s s' h
    rw [generate_tiles] at h
    cases hf : fill rand cur { s with calls := s.calls ++ [cur] } with
    | error e => rw [hf] at h; cases h
    | ok r =>
      obtain ⟨s1, idxs⟩ := r
      rw [hf] at h
      obtain ⟨m1, d1⟩ := fill_det rand' hf
      obtain ⟨m2, d2⟩ := foldlM_det rand rand'
        (fun acc i r hr => ih i acc r hr) idxs s1 s' h
      have m1' : s.drawn ≤ s1.drawn := m1
      refine ⟨by omega, ?_⟩
      intro hA
      rw [generate_tiles, d1 (hA.sub (le_refl _) m2)]
      exact d2 (hA.sub m1' (le_refl _))

/-! ## One step of `generate_tiles` on any well-formed map -/

theorem exists_fitting_wf {m : Map} (htab : ∀ d, tableFor d m = tableFor d Map.new) {cur : Int}
    (hcur : InRange cur) (d : Side) (hg : d.inGrid cur = true)
    (hd : d.has (cell m.tiles cur) = true) :
    ∃ t ∈ tableFor d m, fits m.tiles (d.nb cur) t.tile_index = true := by
  obtain ⟨t, htW, ht⟩ := every_side_assignment (fun d' =>
    if d'.inGrid (d.nb cur) then
      if cell m.tiles (d'.nb (d.nb cur)) ≠ 0 then
        d'.opp.has (cell m.tiles (d'.nb (d.nb cur)))
      else false
    else false)
  have hb := Side.nb_back hcur hg
  refine ⟨t, ?_, ?_⟩
  · rw [htab d, tableFor_new, List.mem_filter]
    refine ⟨htW, ?_⟩
    rw [ht d.opp, hb.1, hb.2, Side.opp_opp]
    simp [has_ne_zero hd, hd]
  · rw [fits_iff]
    intro d'
    unfold side_ok
    rw [ht d']
    cases d'.inGrid (d.nb cur)
    · simp
    · by_cases h0 : cell m.tiles (d'.nb (d.nb cur)) = 0 <;> simp [h0]

theorem grow_exact (rand : Nat → Nat) {s : Run} (acc : List Int) (hwf : WellFormed s.map)
    {cur : Int} (hcur : InRange cur) (d : Side) {guard : Bool}
    (hguard : guard = (d.inGrid cur && d.has (cell s.map.tiles cur))) :
    ∃ s' acc', grow rand guard (d.nb cur) (tableFor d) (s, acc) = .ok (s', acc') ∧
      WellFormed s'.map ∧
      acc' = acc ++
        (if guard = true ∧ cell s.map.tiles (d.nb cur) = 0 then [d.nb cur] else []) ∧
      (guard = true ∧ cell s.map.tiles (d.nb cur) = 0 → cell s'.map.tiles (d.nb cur) ≠ 0) ∧
      (∀ i, cell s'.map.tiles i = cell s.map.tiles i ∨
        (i = d.nb cur ∧ guard = true ∧ cell s.map.tiles (d.nb cur) = 0)) := by
  cases guard
  · exact ⟨s, acc, by simp [grow], hwf, by simp, by simp, fun i => Or.inl rfl⟩
  · have hgd := hguard.symm
    rw [Bool.and_eq_true] at hgd
    obtain ⟨hg, hd⟩ := hgd
    have hxr := Side.nb_inRange hcur hg
    obtain ⟨t, ht⟩ := tile_at_ok hwf.len hxr.1 hxr.2
    have hct := cell_of_tile_at ht
    by_cases h0 : t.char_index = 0
    · have hx : cell s.map.tiles (d.nb cur) = 0 := by rw [hct]; exact h0
      obtain ⟨v, n, hget, hn, ⟨tv, htv, htvv⟩, hfit⟩ :=
        get_tile_ok rand hwf.len hxr (exists_fitting_wf hwf.tables hcur d hg hd)
      have hv : d.opp.has v = true := by
        rw [hwf.tables d, tableFor_new, List.mem_filter] at htv
        rw [← htvv]; exact htv.2
      obtain ⟨tiles', hset, hlen, hcell, hidx⟩ :=
        set_char_index_at_ok hwf.len hxr.1 hxr.2 v
      have hcx : cell tiles' (d.nb cur) = v := by rw [hcell, if_pos rfl]
      refine ⟨{ map := { s.map with tiles := tiles' }, drawn := s.drawn + 1, calls := s.calls,
                picks := s.picks ++ [(d.nb cur, n)], writes := s.writes ++ [(d.nb cur, 0)] },
        acc ++ [d.nb cur], ?_, ?_, ?_, ?_, ?_⟩
      · simp only [grow, if_true, ht, h0, hget, hset]
      · refine { len := hlen, idx := ?_, tables := ?_ }
        · intro i t' ht'
          obtain ⟨t0, ht0, e⟩ := hidx i t' ht'
          rw [e]; exact hwf.idx i t0 ht0
        · intro d'
          have := hwf.tables d'
          cases d' <;> exact this
      · simp [hx]
      · intro _
        show cell tiles' (d.nb cur) ≠ 0
        rw [hcx]; exact has_ne_zero hv
      · intro i
        show cell tiles' i = _ ∨ _
        by_cases hi : i = d.nb cur
        · exact Or.inr ⟨hi, rfl, hx⟩
        · left; rw [hcell, if_neg hi]
    · have hx : cell s.map.tiles (d.nb cur) ≠ 0 := by rw [hct]; exact h0
      refine ⟨s, acc, ?_, hwf, by simp [hx], ?_, fun i => Or.inl rfl⟩
      · simp [grow, ht, h0]
      · intro h; exact absurd h.2 hx

theorem Side.nb_ne_nb {d d' : Side} (h : d ≠ d') (i : Int) : d.nb i ≠ d'.nb i := by
  cases d <;> cases d' <;> simp [Side.nb] at h ⊢ <;> omega

theorem step_targets {tiles0 tiles tiles' : List Tile} {acc acc' : List Int} {x : Int}
    {cond : Prop} [Decidable cond]
    (hin : ∀ i, i ∈ acc → cell tiles0 i = 0 ∧ cell tiles i ≠ 0)
    (hout : ∀ i, i ∉ acc → cell tiles i = cell tiles0 i)
    (hacc : acc' = acc ++ (if cond then [x] else []))
    (hc : cond → cell tiles x = 0 ∧ cell tiles' x ≠ 0)
    (hstep : ∀ i, cell tiles' i = cell tiles i ∨ (i = x ∧ cond)) :
    (∀ i, i ∈ acc' → cell tiles0 i = 0 ∧ cell tiles' i ≠ 0) ∧
    (∀ i, i ∉ acc' → cell tiles' i = cell tiles0 i) := by
  subst hacc
  constructor
  · intro i hi
    rcases List.mem_append.mp hi with hi | hi
    · obtain ⟨h1, h2⟩ := hin i hi
      refine ⟨h1, ?_⟩
      rcases hstep i with e | ⟨rfl, hcond⟩
      · rw [e]; exact h2
      · exact absurd (hc hcond).1 h2
    · by_cases hcond : cond
      · rw [if_pos hcond, List.mem_singleton] at hi
        subst hi
        have hx := hc hcond
        have hnot : i ∉ acc := fun hm => (hin i hm).2 hx.1
        exact ⟨by rw [← hout i hnot]; exact hx.1, hx.2⟩
      · rw [if_neg hcond] at hi
        cases hi
  · intro i hi
    rw [List.mem_append, not_or] at hi
    rcases hstep i with e | ⟨rfl, hcond⟩
    · rw [e]; exact hout i hi.1
    · exact absurd (by rw [if_pos hcond]; exact List.mem_singleton.mpr rfl) hi.2

theorem fill_exact (rand : Nat → Nat) {s0 : Run} (hwf : WellFormed s0.map) {cur : Int}
    (hcur : InRange cur) :
    ∃ s1 idxs, fill rand cur s0 = .ok (s1, idxs) ∧ WellFormed s1.map ∧
      idxs = expected_targets s0.map.tiles cur ∧
      (∀ i, i ∈ idxs → cell s0.map.tiles i = 0 ∧ cell s1.map.tiles i ≠ 0) ∧
      (∀ i, i ∉ idxs → cell s1.map.tiles i = cell s0.map.tiles i) := by
  obtain ⟨t, ht⟩ := tile_at_ok hwf.len hcur.1 hcur.2
  have hti : t.index = cur := hwf.idx cur t ht
  have hchi : t.tile_type.tile_index = cell s0.map.tiles cur := (cell_of_tile_at ht).symm
  have h0 : 0 ≤ cur := hcur.1
  have keep : ∀ {a b : List Tile} {d : Side} {P : Prop},
      (∀ i, cell b i = cell a i ∨ (i = d.nb cur ∧ P)) → ∀ j, j ≠ d.nb cur → cell b j = cell a j := by
    intro a b d P h j hj
    rcases h j with e | ⟨e, _⟩
    · exact e
    · exact absurd e hj
  -- top
  have g1 : (decide ((Neighbors.ofIndex cur).top ≥ 0) &&
      has_top_connection t.tile_type.tile_index)
      = (Side.top.inGrid cur && Side.top.has (cell s0.map.tiles cur)) := by
    rw [hchi]; rfl
  obtain ⟨s1, a1, e1, w1, l1, n1, c1⟩ := grow_exact rand [] hwf hcur .top g1
  have k1 := keep c1
  -- right
  have g2 : (Int.tmod t.index SIZE != SIZE - 1 && has_right_connection t.tile_type.tile_index)
      = (Side.right.inGrid cur && Side.right.has (cell s1.map.tiles cur)) := by
    rw [k1 cur (Ne.symm Side.nb_ne), hchi, hti, tmod_SIZE h0]
    congr 1
    rw [Bool.eq_iff_iff]; simp [Side.inGrid, SIZE]
  obtain ⟨s2, a2, e2, w2, l2, n2, c2⟩ := grow_exact rand a1 w1 hcur .right g2
  have k2 := keep c2
  -- bottom
  have g3 : (decide ((Neighbors.ofIndex cur).bottom < MAP_SIZE) &&
      has_bottom_connection t.tile_type.tile_index)
      = (Side.bottom.inGrid cur && Side.bottom.has (cell s2.map.tiles cur)) := by
    rw [k2 cur (Ne.symm Side.nb_ne), k1 cur (Ne.symm Side.nb_ne), hchi]; rfl
  obtain ⟨s3, a3, e3, w3, l3, n3, c3⟩ := grow_exact rand a2 w2 hcur .bottom g3
  have k3 := keep c3
  -- left
  have g4 : (decide (Int.tmod t.index SIZE > 0) && has_left_connection t.tile_type.tile_index)
      = (Side.left.inGrid cur && Side.left.has (cell s3.map.tiles cur)) := by
    rw [k3 cur (Ne.symm Side.nb_ne), k2 cur (Ne.symm Side.nb_ne), k1 cur (Ne.symm Side.nb_ne),
      hchi, hti, tmod_SIZE h0]
    congr 1
    rw [Bool.eq_iff_iff]; simp [Side.inGrid]; omega
  obtain ⟨s4, a4, e4, w4, l4, n4, c4⟩ := grow_exact rand a3 w3 hcur .left g4
  refine ⟨s4, a4, ?_, w4, ?_, ?_⟩
  · unfold fill
    simp only [ht]
    have e1' : grow rand (decide ((Neighbors.ofIndex cur).top ≥ 0) &&
        has_top_connection t.tile_type.tile_index) (Neighbors.ofIndex cur).top
        Map.top_tiles (s0, []) = .ok (s1, a1) := e1
    have e2' : grow rand (Int.tmod t.index SIZE != SIZE - 1 &&
        has_right_connection t.tile_type.tile_index) (Neighbors.ofIndex cur).right
        Map.right_tiles (s1, a1) = .ok (s2, a2) := e2
    have e3' : grow rand (decide ((Neighbors.ofIndex cur).bottom < MAP_SIZE) &&
        has_bottom_connection t.tile_type.tile_index) (Neighbors.ofIndex cur).bottom
        Map.bottom_tiles (s2, a2) = .ok (s3, a3) := e3
    have e4' : grow rand (decide (Int.tmod t.index SIZE > 0) &&
        has_left_connection t.tile_type.tile_index) (Neighbors.ofIndex cur).left
        Map.left_tiles (s3, a3) = .ok (s4, a4) := e4
    rw [e1']
    simp only [bind, Except.bind]
    rw [e2']
    simp only [e3']
    rw [e4']
  · -- the recorded list
    have u2 : cell s1.map.tiles (Side.right.nb cur) = cell s0.map.tiles (Side.right.nb cur) :=
      k1 _ (Side.nb_ne_nb (by decide) cur)
    have u3 : cell s2.map.tiles (Side.bottom.nb cur) = cell s0.map.tiles (Side.bottom.nb cur) := by
      rw [k2 _ (Side.nb_ne_nb (by decide) cur), k1 _ (Side.nb_ne_nb (by decide) cur)]
    have u4 : cell s3.map.tiles (Side.left.nb cur) = cell s0.map.tiles (Side.left.nb cur) := by
      rw [k3 _ (Side.nb_ne_nb (by decide) cur), k2 _ (Side.nb_ne_nb (by decide) cur),
        k1 _ (Side.nb_ne_nb (by decide) cur)]
    have v2 : cell s1.map.tiles cur = cell s0.map.tiles cur := k1 cur (Ne.symm Side.nb_ne)
    have v3 : cell s2.map.tiles cur = cell s0.map.tiles cur := by
      rw [k2 cur (Ne.symm Side.nb_ne), v2]
    have v4 : cell s3.map.tiles cur = cell s0.map.tiles cur := by
      rw [k3 cur (Ne.symm Side.nb_ne), v3]
    rw [l4, l3, l2, l1, g1, g2, g3, g4, u2, u3, u4, v2, v3, v4]
    unfold expected_targets
    simp only [List.nil_append, Side.inGrid, Side.has, Side.nb, Bool.and_eq_true,
      decide_eq_true_eq, SIZE, MAP_SIZE, EMPTY_CHAR_INDEX, and_assoc]
    rfl
  · have q0 : (∀ i, i ∈ ([] : List Int) → cell s0.map.tiles i = 0 ∧ cell s0.map.tiles i ≠ 0) ∧
        (∀ i, i ∉ ([] : List Int) → cell s0.map.tiles i = cell s0.map.tiles i) :=
      ⟨fun i hi => absurd hi (List.not_mem_nil i), fun _ _ => rfl⟩
    have q1 := step_targets q0.1 q0.2 l1 (fun h => ⟨h.2, n1 h⟩) c1
    have q2 := step_targets q1.1 q1.2 l2 (fun h => ⟨h.2, n2 h⟩) c2
    have q3 := step_targets q2.1 q2.2 l3 (fun h => ⟨h.2, n3 h⟩) c3
    exact step_targets q3.1 q3.2 l4 (fun h => ⟨h.2, n4 h⟩) c4


theorem Inv.wellFormed {s : Run} (h : Inv s) : WellFormed s.map :=
  { len := h.len, idx := h.idx, tables := h.tables }

theorem wellFormed_seeded : WellFormed (seeded seed_grid).map :=
  (seeded_inv seed_grid_eq).1.wellFormed

theorem tile_at_ok_iff (tiles : List Tile) (i : Int) :
    (∃ t, tile_at tiles i = .ok t) ↔ (0 ≤ i ∧ i < tiles.length) := by
  unfold tile_at
  by_cases h0 : 0 ≤ i
  · rw [if_pos h0]
    by_cases hlt : i.toNat < tiles.length
    · rw [List.getElem?_eq_getElem hlt]
      exact ⟨fun _ => ⟨h0, by omega⟩, fun _ => ⟨_, rfl⟩⟩
    · rw [List.getElem?_eq_none (by omega)]
      constructor
      · rintro ⟨t, ht⟩; cases ht
      · intro h; omega
  · rw [if_neg h0]
    constructor
    · rintro ⟨t, ht⟩; cases ht
    · intro h; exact absurd h.1 h0

theorem set_char_index_at_ok_iff (tiles : List Tile) (i v : Int) :
    (∃ ts, set_char_index_at tiles i v = .ok ts) ↔ (0 ≤ i ∧ i < tiles.length) := by
  unfold set_char_index_at
  by_cases h0 : 0 ≤ i
  · rw [if_pos h0]
    by_cases hlt : i.toNat < tiles.length
    · rw [List.getElem?_eq_getElem hlt]
      exact ⟨fun _ => ⟨h0, by omega⟩, fun _ => ⟨_, rfl⟩⟩
    · rw [List.getElem?_eq_none (by omega)]
      constructor
      · rintro ⟨t, ht⟩; cases ht
      · intro h; omega
  · rw [if_neg h0]
    constructor
    · rintro ⟨t, ht⟩; cases ht
    · intro h; exact absurd h.1 h0

theorem expected_targets_adjacent {tiles : List Tile} {cur i : Int}
    (hi : i ∈ expected_targets tiles cur) :
    (i / SIZE = cur / SIZE ∧ (i = cur + 1 ∨ i = cur - 1)) ∨
    (i % SIZE = cur % SIZE ∧ (i = cur - SIZE ∨ i = cur + SIZE)) := by
  unfold expected_targets at hi
  simp only [List.mem_append] at hi
  simp only [SIZE] at hi ⊢
  rcases hi with ((hi | hi) | hi) | hi
  · split at hi
    · rw [List.mem_singleton] at hi; omega
    · cases hi
  · split at hi
    · rw [List.mem_singleton] at hi; omega
    · cases hi
  · split at hi
    · rw [List.mem_singleton] at hi; omega
    · cases hi
  · split at hi
    · rw [List.mem_singleton] at hi; omega
    · cases hi

set_option maxRecDepth 100000 in
theorem expected_targets_seed : expected_targets seed_grid 136 = [120, 137, 152, 135] := by
  decide


set_option maxRecDepth 100000 in
theorem create_zero_drawn :
    (create (fun _ => 0) Map.new).toOption.map (fun s => s.drawn) = some 4 := by
  decide

/-! ## The claims -/

/-- C1 (local consistency): on a freshly constructed map, for every sequence
of `rand()` results, `create` returns, and in the grid it leaves any two
assigned cells that are horizontal neighbours in the same row, or vertical
neighbours in the same column, agree on the opening between them: the left
cell has a right opening iff the right cell has a left opening, and the upper
cell has a bottom opening iff the lower cell has a top opening. -/
theorem create_locally_consistent (rand : Nat → Nat) :
    ∃ s, create rand Map.new = .ok s ∧
      ∀ a b : Int, 0 ≤ a ∧ a < MAP_SIZE → 0 ≤ b ∧ b < MAP_SIZE →
        cell s.map.tiles a ≠ EMPTY_CHAR_INDEX → cell s.map.tiles b ≠ EMPTY_CHAR_INDEX →
        ((a / SIZE = b / SIZE ∧ b = a + 1 →
            (has_right_connection (cell s.map.tiles a) = true ↔
              has_left_connection (cell s.map.tiles b) = true)) ∧
         (a % SIZE = b % SIZE ∧ b = a + SIZE →
            (has_bottom_connection (cell s.map.tiles a) = true ↔
              has_top_connection (cell s.map.tiles b) = true))) := by
  obtain ⟨tiles, s, _, hs, _, G⟩ := create_spec rand
  refine ⟨s, hs, ?_⟩
  intro a b ha hb hca hcb
  constructor
  · rintro ⟨hrow, rfl⟩
    have hg : Side.right.inGrid a = true := by
      simp only [Side.inGrid, decide_eq_true_eq]
      simp only [SIZE] at hrow
      omega
    have := G.inv.matched ha hca .right hg hcb
    show Side.right.has _ = true ↔ Side.right.opp.has _ = true
    rw [this]; rfl
  · rintro ⟨_, rfl⟩
    have hg : Side.bottom.inGrid a = true := by
      simp only [Side.inGrid, decide_eq_true_eq]
      have := hb.2
      simp only [MAP_SIZE, SIZE] at this
      omega
    have := G.inv.matched ha hca .bottom hg hcb
    show Side.bottom.has _ = true ↔ Side.bottom.opp.has _ = true
    rw [this]; rfl

/-- C2 (no opening faces the boundary): on a freshly constructed map, for
every sequence of `rand()` results, `create` returns, and in the grid it
leaves no assigned cell of row 0 has a top opening, none of row `SIZE - 1` has
a bottom opening, none of column 0 has a left opening and none of column
`SIZE - 1` has a right opening. -/
theorem create_closed_at_boundary (rand : Nat → Nat) :
    ∃ s, create rand Map.new = .ok s ∧
      ∀ i : Int, 0 ≤ i ∧ i < MAP_SIZE → cell s.map.tiles i ≠ EMPTY_CHAR_INDEX →
        ((i / SIZE = 0 → has_top_connection (cell s.map.tiles i) = false) ∧
         (i / SIZE = SIZE - 1 → has_bottom_connection (cell s.map.tiles i) = false) ∧
         (i % SIZE = 0 → has_left_connection (cell s.map.tiles i) = false) ∧
         (i % SIZE = SIZE - 1 → has_right_connection (cell s.map.tiles i) = false)) := by
  obtain ⟨tiles, s, _, hs, _, G⟩ := create_spec rand
  refine ⟨s, hs, ?_⟩
  intro i hi hc
  have hi' : 0 ≤ i ∧ i < 256 := hi
  refine ⟨?_, ?_, ?_, ?_⟩
  · intro h
    simp only [SIZE] at h
    exact G.inv.boundary hi hc .top (by simp only [Side.inGrid, decide_eq_false_iff_not]; omega)
  · intro h
    simp only [SIZE] at h
    exact G.inv.boundary hi hc .bottom
      (by simp only [Side.inGrid, decide_eq_false_iff_not]; omega)
  · intro h
    simp only [SIZE] at h
    exact G.inv.boundary hi hc .left (by simp only [Side.inGrid, decide_eq_false_iff_not]; omega)
  · intro h
    simp only [SIZE] at h
    exact G.inv.boundary hi hc .right
      (by simp only [Side.inGrid, decide_eq_false_iff_not]; omega)

/-- C3 (the narrowed candidate set is never empty): on a freshly constructed
map, for every sequence of `rand()` results, `create` returns without a fault
(so no `rand() % 0` and no out-of-range index into `tile_vec`, both of which
the embedding reports as faults), every call of `get_tile` it made had at
least one candidate left after the four narrowings, and every write of
`generate_tiles` is paired with such a call for the same target. -/
theorem create_candidates_nonempty (rand : Nat → Nat) :
    ∃ s, create rand Map.new = .ok s ∧
      (∀ p ∈ s.picks, 0 < p.2) ∧
      s.picks.map Prod.fst = s.writes.map Prod.fst ∧
      s.drawn = s.picks.length ∧
      (∀ r, pick [] r = .error Fault.moduloByZero) := by
  obtain ⟨tiles, s, _, hs, _, G⟩ := create_spec rand
  exact ⟨s, hs, G.inv.picks_pos, G.inv.log_sync.1, G.inv.log_sync.2, fun _ => rfl⟩

/-- C4 (connectivity from the seed): on a freshly constructed map, for every
sequence of `rand()` results, `create` returns, and every assigned cell of the
grid it leaves is reached from the center cell `SIZE/2 + SIZE/2*SIZE` by a
chain of `MatchedStep`s, each between orthogonally adjacent assigned cells
through an opening of the cell left and the opening facing back of the cell
entered. -/
theorem create_connected_from_seed (rand : Nat → Nat) :
    ∃ s, create rand Map.new = .ok s ∧
      ∀ i : Int, 0 ≤ i ∧ i < MAP_SIZE → cell s.map.tiles i ≠ EMPTY_CHAR_INDEX →
        Relation.ReflTransGen (MatchedStep s.map.tiles) center_index i := by
  obtain ⟨tiles, s, _, hs, _, G⟩ := create_spec rand
  refine ⟨s, hs, ?_⟩
  intro i hi hc
  rw [center_index_eq]
  exact Relation.ReflTransGen.mono (fun a b => Link.matchedStep G.inv.len) (G.inv.reach i hi hc)

/-- C5 (termination): on a freshly constructed map, for every sequence of
`rand()` results, `create` returns with the recursion-depth bound `MAP_SIZE`
and returns the same state with every larger bound; no index is passed to
`generate_tiles` twice; there are at most `MAP_SIZE` invocations; the first is
on the center cell and every other one is on a cell that `generate_tiles`
wrote while it was empty and that is assigned afterwards. -/
theorem create_terminates (rand : Nat → Nat) :
    ∃ s, create rand Map.new = .ok s ∧
      (∀ fuel, MAP_SIZE.toNat ≤ fuel → create_fuel fuel rand Map.new = .ok s) ∧
      s.calls.Nodup ∧
      (s.calls.length : Int) ≤ MAP_SIZE ∧
      (∃ rest, s.calls = center_index :: rest ∧
        ∀ c ∈ rest, (c, EMPTY_CHAR_INDEX) ∈ s.writes ∧ cell s.map.tiles c ≠ EMPTY_CHAR_INDEX) := by
  obtain ⟨tiles, s, hset, hs, hfuel, G⟩ := create_spec rand
  refine ⟨s, hs, hfuel, G.inv.calls_nodup, ?_, ?_⟩
  · have := G.inv.calls_length
    simp only [MAP_SIZE, SIZE]
    omega
  · obtain ⟨rest, hrest⟩ := G.calls_prefix
    have hrest' : s.calls = 136 :: rest := by simpa [seeded] using hrest
    refine ⟨rest, by rw [center_index_eq]; exact hrest', ?_⟩
    intro c hc
    have hmem : c ∈ s.calls := by rw [hrest']; exact List.mem_cons_of_mem _ hc
    have hne : c ≠ 136 := by
      intro e
      have := G.inv.calls_nodup
      rw [hrest', List.nodup_cons] at this
      exact this.1 (e ▸ hc)
    have hassigned := (G.inv.calls_assigned c hmem).2
    refine ⟨?_, hassigned⟩
    rcases G.inv.assigned_written c hassigned with h | h
    · exact absurd h hne
    · obtain ⟨w, hw, hwc⟩ := List.mem_map.mp h
      have h0 := G.inv.writes_empty w hw
      have : w = (c, EMPTY_CHAR_INDEX) := by
        rw [← hwc]; exact Prod.ext rfl h0
      rw [← this]; exact hw

/-- C6 (single assignment): for every sequence of `rand()` results, (1) in
every grid state and for every cell index, an invocation of `generate_tiles`
that returns has left the variant of every cell that was assigned at its start
unchanged, and each write it logged found the written cell empty; (2) during
`create` on a fresh map no index is written twice, every write of
`generate_tiles` found its cell empty, none of them is to the center cell, and
the center cell still holds `START_CHAR_INDEX` at the end. -/
theorem generate_tiles_single_assignment (rand : Nat → Nat) :
    (∀ (fuel : Nat) (cur_index : Int) (s s' : Run),
        generate_tiles rand fuel cur_index s = .ok s' →
        (∀ i, cell s.map.tiles i ≠ EMPTY_CHAR_INDEX →
          cell s'.map.tiles i = cell s.map.tiles i) ∧
        ∃ new, s'.writes = s.writes ++ new ∧ ∀ w ∈ new, w.2 = EMPTY_CHAR_INDEX) ∧
    (∃ s, create rand Map.new = .ok s ∧
        (s.writes.map Prod.fst).Nodup ∧
        (∀ w ∈ s.writes, w.2 = EMPTY_CHAR_INDEX ∧ w.1 ≠ center_index) ∧
        cell s.map.tiles center_index = START_CHAR_INDEX) := by
  refine ⟨fun fuel cur s s' h => generate_tiles_writes rand fuel cur s s' h, ?_⟩
  obtain ⟨tiles, s, _, hs, _, G⟩ := create_spec rand
  refine ⟨s, hs, G.inv.writes_nodup, ?_, ?_⟩
  · intro w hw
    exact ⟨G.inv.writes_empty w hw, by rw [center_index_eq]; exact (G.inv.writes_assigned w hw).2.2⟩
  · rw [center_index_eq]; exact G.inv.seed

set_option maxRecDepth 100000 in
/-- Witness for C6: the invocation `generate_tiles(136)` on the seeded grid
with the constant `rand()` stream 0 returns, and the center cell, assigned
before the call, keeps its variant. -/
theorem generate_tiles_single_assignment_witness :
    ∃ s', generate_tiles (fun _ => 0) 2 136 (seeded seed_grid) = .ok s' ∧
      cell (seeded seed_grid).map.tiles 136 ≠ EMPTY_CHAR_INDEX ∧
      cell s'.map.tiles 136 = cell (seeded seed_grid).map.tiles 136 := by
  have hok : (generate_tiles (fun _ => 0) 2 136 (seeded seed_grid)).toBool = true := by decide
  cases h : generate_tiles (fun _ => 0) 2 136 (seeded seed_grid) with
  | error e => rw [h] at hok; cases hok
  | ok s' =>
    have hne : cell (seeded seed_grid).map.tiles 136 ≠ EMPTY_CHAR_INDEX := by decide
    exact ⟨s', rfl, hne,
      ((generate_tiles_single_assignment (fun _ => 0)).1 2 136 (seeded seed_grid) s' h).1 136 hne⟩

set_option maxRecDepth 100000 in
/-- C7 (the code at the failing input): in the first call of `get_tile` that
every run of `create` makes (target 120, the cell above the seed, with
`top_tiles`), the narrowed candidate vector is all of `top_tiles`; it contains
variant 4 with weight 8 and variant 15 with weight 2, and over the `2^31`
values of a uniform draw the code selects the two equally often, where
selection proportional to weight requires four times as many draws for
variant 4: the weights carried by the candidates are not used by the draw. -/
theorem weighted_selection_defect :
    narrowed seed_grid 120 Map.new.top_tiles = .ok Map.new.top_tiles ∧
    (⟨4, 8⟩ : TileType) ∈ Map.new.top_tiles ∧ (⟨15, 2⟩ : TileType) ∈ Map.new.top_tiles ∧
    (draws_selecting Map.new.top_tiles 2147483648 ⟨4, 8⟩ : Int) * (⟨15, 2⟩ : TileType).weight ≠
      (draws_selecting Map.new.top_tiles 2147483648 ⟨15, 2⟩ : Int) * (⟨4, 8⟩ : TileType).weight := by
  have hlen : (2147483648 : Nat) = 268435456 * Map.new.top_tiles.length := by decide
  have hnd : (Map.new.top_tiles.map TileType.tile_index).Nodup := table_variants_nodup .top
  have h4 : (⟨4, 8⟩ : TileType) ∈ Map.new.top_tiles := by decide
  have h15 : (⟨15, 2⟩ : TileType) ∈ Map.new.top_tiles := by decide
  refine ⟨first_narrowed, h4, h15, ?_⟩
  · rw [hlen, draws_selecting_uniform hnd _ h4, draws_selecting_uniform hnd _ h15]
    decide

/-- The extent of the defect in the draw of `get_tile`: whatever the grid, the
target and the direction table, if the four narrowings leave the vector `tv`,
then of the draw values `0 .. k * tv.size() - 1` exactly `k` select each
candidate, so the code selects any two candidates equally often, whatever
their weights. -/
theorem get_tile_selection_uniform (tiles : List Tile) (ti : Int) (d : Side) (tv : TileVec)
    (h : narrowed tiles ti (tableFor d Map.new) = .ok tv) (k : Nat) :
    ∀ a ∈ tv, ∀ b ∈ tv,
      draws_selecting tv (k * tv.length) a = k ∧
      draws_selecting tv (k * tv.length) a = draws_selecting tv (k * tv.length) b := by
  have hnd : (tv.map TileType.tile_index).Nodup :=
    ((narrowed_sublist h).map _).nodup (table_variants_nodup d)
  intro a ha b hb
  rw [draws_selecting_uniform hnd k ha, draws_selecting_uniform hnd k hb]
  exact ⟨rfl, rfl⟩

/-- An instance of `get_tile_selection_uniform`: the first `get_tile` call of
`create`, with `2^28` rounds over its eight candidates; the candidates of
weight 8 and of weight 2 are both selected `2^28` times. -/
theorem get_tile_selection_uniform_witness :
    narrowed seed_grid 120 (tableFor Side.top Map.new) = .ok Map.new.top_tiles ∧
    draws_selecting Map.new.top_tiles (268435456 * Map.new.top_tiles.length) ⟨4, 8⟩ = 268435456 ∧
    draws_selecting Map.new.top_tiles (268435456 * Map.new.top_tiles.length) ⟨4, 8⟩ =
      draws_selecting Map.new.top_tiles (268435456 * Map.new.top_tiles.length) ⟨15, 2⟩ :=
  ⟨first_narrowed,
   get_tile_selection_uniform seed_grid 120 Side.top Map.new.top_tiles
     first_narrowed 268435456 ⟨4, 8⟩ (by decide) ⟨15, 2⟩ (by decide)⟩

/-- C8 (bit round-trip): for every variant `v` in `[0, 15]` the four
predicates `has_top_connection`, `has_right_connection`,
`has_bottom_connection`, `has_left_connection` hold exactly when bit 1, 2, 4,
8 of `v` is set; `v` is `1*top + 2*right + 4*bottom + 8*left` of the four
answers; a variant of `[0, 15]` with the same four answers is `v`; variant 0
has no opening and variant 15 has all four. -/
theorem bit_round_trip (v : Int) (h0 : 0 ≤ v) (h15 : v ≤ 15) :
    ((has_top_connection v = true ↔ v / 1 % 2 = 1) ∧
     (has_right_connection v = true ↔ v / 2 % 2 = 1) ∧
     (has_bottom_connection v = true ↔ v / 4 % 2 = 1) ∧
     (has_left_connection v = true ↔ v / 8 % 2 = 1)) ∧
    v = 1 * (if has_top_connection v then 1 else 0) +
        2 * (if has_right_connection v then 1 else 0) +
        4 * (if has_bottom_connection v then 1 else 0) +
        8 * (if has_left_connection v then 1 else 0) ∧
    (∀ w : Int, 0 ≤ w → w ≤ 15 →
      has_top_connection w = has_top_connection v →
      has_right_connection w = has_right_connection v →
      has_bottom_connection w = has_bottom_connection v →
      has_left_connection w = has_left_connection v → w = v) ∧
    (has_top_connection 0 = false ∧ has_right_connection 0 = false ∧
      has_bottom_connection 0 = false ∧ has_left_connection 0 = false) ∧
    (has_top_connection 15 = true ∧ has_right_connection 15 = true ∧
      has_bottom_connection 15 = true ∧ has_left_connection 15 = true) := by
  have hsum : ∀ u : Int, 0 ≤ u → u ≤ 15 →
      u = 1 * (if has_top_connection u then 1 else 0) +
          2 * (if has_right_connection u then 1 else 0) +
          4 * (if has_bottom_connection u then 1 else 0) +
          8 * (if has_left_connection u then 1 else 0) := by
    intro u hu0 hu15
    interval_cases u <;> decide
  refine ⟨?_, hsum v h0 h15, ?_, by decide, by decide⟩
  · interval_cases v <;> decide
  · intro w hw0 hw15 e1 e2 e3 e4
    rw [hsum w hw0 hw15, e1, e2, e3, e4]
    exact (hsum v h0 h15).symm

/-- Witness for C8 at the variant 5 (top and bottom openings). -/
theorem bit_round_trip_witness :
    (0 : Int) ≤ 5 ∧ (5 : Int) ≤ 15 ∧ has_top_connection 5 = true ∧
      has_right_connection 5 = false ∧ has_bottom_connection 5 = true ∧
      has_left_connection 5 = false ∧
      (has_bottom_connection 5 = true ↔ (5 : Int) / 4 % 2 = 1) :=
  ⟨by decide, by decide, by decide, by decide, by decide, by decide,
   (bit_round_trip 5 (by decide) (by decide)).1.2.2.1⟩

/-- C9 (table completeness): after the constructor each of the four direction
tables is non-empty, has no repeated entry, and is exactly the list of the
entries of `WEIGHTED_TILE_TYPES` (weight included, in table order) whose
variant has the opening facing back: `bottom_tiles` those with a top opening,
`top_tiles` those with a bottom opening, `right_tiles` those with a left
opening, `left_tiles` those with a right opening. -/
theorem direction_tables_complete :
    (Map.new.bottom_tiles ≠ [] ∧ Map.new.bottom_tiles.Nodup ∧
      Map.new.bottom_tiles
        = WEIGHTED_TILE_TYPES.filter (fun t => has_top_connection t.tile_index) ∧
      ∀ t, t ∈ Map.new.bottom_tiles ↔
        t ∈ WEIGHTED_TILE_TYPES ∧ has_top_connection t.tile_index = true) ∧
    (Map.new.top_tiles ≠ [] ∧ Map.new.top_tiles.Nodup ∧
      Map.new.top_tiles
        = WEIGHTED_TILE_TYPES.filter (fun t => has_bottom_connection t.tile_index) ∧
      ∀ t, t ∈ Map.new.top_tiles ↔
        t ∈ WEIGHTED_TILE_TYPES ∧ has_bottom_connection t.tile_index = true) ∧
    (Map.new.right_tiles ≠ [] ∧ Map.new.right_tiles.Nodup ∧
      Map.new.right_tiles
        = WEIGHTED_TILE_TYPES.filter (fun t => has_left_connection t.tile_index) ∧
      ∀ t, t ∈ Map.new.right_tiles ↔
        t ∈ WEIGHTED_TILE_TYPES ∧ has_left_connection t.tile_index = true) ∧
    (Map.new.left_tiles ≠ [] ∧ Map.new.left_tiles.Nodup ∧
      Map.new.left_tiles
        = WEIGHTED_TILE_TYPES.filter (fun t => has_right_connection t.tile_index) ∧
      ∀ t, t ∈ Map.new.left_tiles ↔
        t ∈ WEIGHTED_TILE_TYPES ∧ has_right_connection t.tile_index = true) ∧
    WEIGHTED_TILE_TYPES.Nodup := by
  have eb := tableFor_new .bottom
  have et := tableFor_new .top
  have er := tableFor_new .right
  have el := tableFor_new .left
  have hmem : ∀ (p : TileType → Bool) (tbl : TileVec), tbl = WEIGHTED_TILE_TYPES.filter p →
      ∀ t, t ∈ tbl ↔ t ∈ WEIGHTED_TILE_TYPES ∧ p t = true := by
    intro p tbl h t
    rw [h, List.mem_filter]
  exact ⟨⟨by decide, by decide, eb, hmem _ _ eb⟩, ⟨by decide, by decide, et, hmem _ _ et⟩,
    ⟨by decide, by decide, er, hmem _ _ er⟩, ⟨by decide, by decide, el, hmem _ _ el⟩, by decide⟩

set_option maxRecDepth 100000 in
/-- C10 (seed placement): the center index `SIZE/2 + SIZE/2*SIZE` is 136, row
`SIZE/2` and column `SIZE/2`; on a freshly constructed map `create` is the run
of `generate_tiles` from that index on the grid of 256 tiles whose only
assigned cell is the center one, holding `START_CHAR_INDEX` = 15; for every
sequence of `rand()` results it returns, the first invocation of
`generate_tiles` is on index 136 and there is no other on that index, and the
center cell holds variant 15 in the final grid. -/
theorem create_seed_placement (rand : Nat → Nat) :
    center_index = 136 ∧ Int.tdiv center_index SIZE = Int.tdiv SIZE 2 ∧
    Int.tmod center_index SIZE = Int.tdiv SIZE 2 ∧
    create rand Map.new = generate_tiles rand MAP_SIZE.toNat center_index (seeded seed_grid) ∧
    (∀ i, cell seed_grid i = if i = center_index then START_CHAR_INDEX else EMPTY_CHAR_INDEX) ∧
    ∃ s, create rand Map.new = .ok s ∧
      cell s.map.tiles center_index = 15 ∧
      s.calls.head? = some center_index ∧
      s.calls.count center_index = 1 := by
  obtain ⟨tiles, s, hset, hs, _, G⟩ := create_spec rand
  have htiles : tiles = seed_grid := by
    have := seed_grid_eq
    rw [show START_CHAR_INDEX = (15 : Int) from rfl, hset] at this
    exact Except.ok.inj this
  subst htiles
  have hcreate :
      create rand Map.new = generate_tiles rand MAP_SIZE.toNat center_index (seeded seed_grid) := by
    unfold create create_fuel
    have e : Int.tdiv SIZE 2 + Int.tdiv SIZE 2 * SIZE = 136 := by decide
    have hnew : Map.new.tiles = [] := rfl
    simp only [e, hnew, START_CHAR_INDEX, hset, center_index_eq]
    rfl
  refine ⟨center_index_eq, by decide, by decide, hcreate, ?_, s, hs, ?_, ?_, ?_⟩
  · intro i
    rw [center_index_eq]
    exact (seeded_inv hset).2 i
  · rw [center_index_eq]; exact G.inv.seed
  · obtain ⟨rest, hrest⟩ := G.calls_prefix
    have hrest' : s.calls = 136 :: rest := by simpa [seeded] using hrest
    rw [hrest', center_index_eq]; rfl
  · rw [center_index_eq]
    exact List.count_eq_one_of_mem G.inv.calls_nodup G.calls_cur

/-- C11 (determinism): on a freshly constructed map `create` returns for every
sequence of `rand()` results, and its result depends on nothing but the
results it consumed: a second run whose `rand()` stream agrees with the first
on the `s.drawn` results the first run drew returns the very same state, so
every cell of its grid holds the same variant. -/
theorem create_deterministic (rand : Nat → Nat) :
    ∃ s, create rand Map.new = .ok s ∧
      ∀ rand' : Nat → Nat, (∀ n, n < s.drawn → rand' n = rand n) →
        create rand' Map.new = .ok s ∧
        ∀ s', create rand' Map.new = .ok s' →
          ∀ i, cell s'.map.tiles i = cell s.map.tiles i := by
  obtain ⟨tiles, s, _, hs, _, _⟩ := create_spec rand
  refine ⟨s, hs, ?_⟩
  intro rand' hagree
  have hgen := hs
  rw [create_eq_generate] at hgen
  obtain ⟨_, hdet⟩ := generate_tiles_det rand' _ _ _ _ hgen
  have hs' : create rand' Map.new = .ok s := by
    rw [create_eq_generate]
    exact hdet (fun n _ hn => hagree n hn)
  refine ⟨hs', ?_⟩
  intro s' h'
  rw [hs'] at h'
  cases h'
  intro i; rfl

/-- Witness for C11: the run with the constant `rand()` stream 0 draws four
results; a stream that agrees with it on these four and differs afterwards
gives the same state. -/
theorem create_deterministic_witness :
    ∃ s, create (fun _ => 0) Map.new = .ok s ∧ s.drawn = 4 ∧
      create (fun n => if n < 4 then 0 else 9) Map.new = .ok s := by
  obtain ⟨s, hs, h⟩ := create_deterministic (fun _ => 0)
  have hd : s.drawn = 4 := by
    have := create_zero_drawn
    rw [hs] at this
    exact Option.some.inj this
  refine ⟨s, hs, hd, (h (fun n => if n < 4 then 0 else 9) ?_).1⟩
  intro n hn
  rw [hd] at hn
  simp [hn]

/-- C12 (no out-of-range grid access): the embedding turns every read and
write of `this->tiles` outside `[0, tiles.size())` into a fault, and only
those; a write never changes the number of tiles; for a target inside the grid every neighbour index that the guards of
`get_tile` and `generate_tiles` let through lies in `[0, MAP_SIZE)`; and on a
freshly constructed map, for every sequence of `rand()` results, `create`
returns without a fault on a grid of `MAP_SIZE` tiles, every index passed to
`generate_tiles`, to `get_tile` or written being in `[0, MAP_SIZE)`. -/
theorem create_indexes_in_range (rand : Nat → Nat) :
    (∀ (tiles : List Tile) (i : Int),
      (∃ t, tile_at tiles i = .ok t) ↔ (0 ≤ i ∧ i < tiles.length)) ∧
    (∀ (tiles : List Tile) (i v : Int),
      (∃ ts, set_char_index_at tiles i v = .ok ts) ↔ (0 ≤ i ∧ i < tiles.length)) ∧
    (∀ (tiles ts : List Tile) (i v : Int),
      set_char_index_at tiles i v = .ok ts → ts.length = tiles.length) ∧
    (∀ ti : Int, 0 ≤ ti ∧ ti < MAP_SIZE →
      ((Neighbors.ofIndex ti).top ≥ 0 →
        0 ≤ (Neighbors.ofIndex ti).top ∧ (Neighbors.ofIndex ti).top < MAP_SIZE) ∧
      (Int.tmod ti SIZE ≠ SIZE - 1 →
        0 ≤ (Neighbors.ofIndex ti).right ∧ (Neighbors.ofIndex ti).right < MAP_SIZE) ∧
      ((Neighbors.ofIndex ti).bottom < MAP_SIZE →
        0 ≤ (Neighbors.ofIndex ti).bottom ∧ (Neighbors.ofIndex ti).bottom < MAP_SIZE) ∧
      (Int.tmod ti SIZE ≠ 0 →
        0 ≤ (Neighbors.ofIndex ti).left ∧ (Neighbors.ofIndex ti).left < MAP_SIZE)) ∧
    ∃ s, create rand Map.new = .ok s ∧
      (s.map.tiles.length : Int) = MAP_SIZE ∧
      (∀ c ∈ s.calls, 0 ≤ c ∧ c < MAP_SIZE) ∧
      (∀ p ∈ s.picks, 0 ≤ p.1 ∧ p.1 < MAP_SIZE) ∧
      (∀ w ∈ s.writes, 0 ≤ w.1 ∧ w.1 < MAP_SIZE) := by
  refine ⟨tile_at_ok_iff, set_char_index_at_ok_iff,
    fun tiles ts i v h => (set_char_index_at_eq h).1, ?_, ?_⟩
  · intro ti hti
    have h0 := hti.1
    have h1 : ti < 256 := hti.2
    rw [tmod_SIZE h0]
    simp only [Neighbors.ofIndex, SIZE, MAP_SIZE]
    refine ⟨fun _ => by omega, fun _ => by omega, fun _ => by omega, fun _ => by omega⟩
  · obtain ⟨tiles, s, _, hs, _, G⟩ := create_spec rand
    refine ⟨s, hs, ?_, ?_, ?_, ?_⟩
    · rw [G.inv.len]; rfl
    · exact fun c hc => (G.inv.calls_assigned c hc).1
    · intro p hp
      have hmem : p.1 ∈ s.picks.map Prod.fst := List.mem_map.mpr ⟨p, hp, rfl⟩
      rw [G.inv.log_sync.1] at hmem
      obtain ⟨w, hw, hwp⟩ := List.mem_map.mp hmem
      rw [← hwp]
      exact (G.inv.writes_assigned w hw).1
    · exact fun w hw => (G.inv.writes_assigned w hw).1

set_option maxRecDepth 100000 in
/-- C13, counterexample: a freshly constructed map holds no cell at all, not
`SIZE * SIZE`, and `create` changes the number of cells from 0 to 256. -/
theorem fixed_grid_size_counterexample :
    Map.new.tiles.length = 0 ∧ (Map.new.tiles.length : Int) ≠ SIZE * SIZE ∧
    (create (fun _ => 0) Map.new).toOption.map (fun s => s.map.tiles.length) = some 256 := by
  decide

/-- C13 (amended): the constructor leaves the grid empty; `create` and
`randomize` each append exactly `MAP_SIZE` = 256 tiles to the grid they find;
`generate_tiles` never changes the number of tiles; so after `create` on a
freshly constructed map, for every sequence of `rand()` results, the grid
holds exactly `SIZE * SIZE` tiles. -/
theorem grid_size_after_create (rand : Nat → Nat) :
    Map.new.tiles.length = 0 ∧
    (∀ m : Map, (randomize rand m).tiles.length = m.tiles.length + MAP_SIZE.toNat) ∧
    (∀ (fuel : Nat) (cur_index : Int) (s s' : Run),
      generate_tiles rand fuel cur_index s = .ok s' →
        s'.map.tiles.length = s.map.tiles.length) ∧
    (∀ (fuel : Nat) (m : Map) (s : Run), create_fuel fuel rand m = .ok s →
      s.map.tiles.length = m.tiles.length + MAP_SIZE.toNat) ∧
    ∃ s, create rand Map.new = .ok s ∧ (s.map.tiles.length : Int) = SIZE * SIZE := by
  refine ⟨rfl, fun m => randomize_length rand m,
    fun fuel cur s s' h => generate_tiles_length h,
    fun fuel m s h => create_fuel_length h, ?_⟩
  obtain ⟨tiles, s, _, hs, _, G⟩ := create_spec rand
  exact ⟨s, hs, by rw [G.inv.len]; rfl⟩

/-- Witness for C13 (amended): `create` with the constant `rand()` stream 0 on
a freshly constructed map returns a grid of 0 + 256 tiles. -/
theorem grid_size_after_create_witness :
    ∃ s, create_fuel MAP_SIZE.toNat (fun _ => 0) Map.new = .ok s ∧
      s.map.tiles.length = Map.new.tiles.length + MAP_SIZE.toNat := by
  obtain ⟨s, hs⟩ := create_zero_ok
  exact ⟨s, hs, (grid_size_after_create (fun _ => 0)).2.2.2.1 MAP_SIZE.toNat Map.new s hs⟩

/-- C15 (postcondition of `get_tile`): on a grid of 256 cells, for a target
`ti` of the grid, any candidate table and any `rand()` stream, if the narrowed
set is not empty then `get_tile` returns a variant; it is the variant of an
entry of the supplied table, it satisfies the four side constraints of `ti`
(no opening toward the outside of the grid, an opening toward an assigned
neighbour that opens back, no opening toward an assigned neighbour that does
not, nothing required by an unassigned neighbour), and the map is unchanged. -/
theorem get_tile_postcondition (rand : Nat → Nat) (s : Run) (ti : Int) (tile_vec : TileVec)
    (hlen : s.map.tiles.length = 256) (hti : 0 ≤ ti ∧ ti < MAP_SIZE)
    (hne : ∀ tv, narrowed s.map.tiles ti tile_vec = .ok tv → tv ≠ []) :
    ∃ v s', get_tile rand ti tile_vec s = .ok (v, s') ∧
      (∃ t ∈ tile_vec, t.tile_index = v) ∧
      SideConstraints s.map.tiles ti v ∧ s'.map = s.map := by
  have hn := narrowed_eq hlen hti tile_vec
  obtain ⟨t0, ht0⟩ := List.exists_mem_of_ne_nil _ (hne _ hn)
  obtain ⟨v, n, hget, _, hmem, hfit⟩ := get_tile_ok rand hlen hti
    ⟨t0, (List.mem_filter.mp ht0).1, (List.mem_filter.mp ht0).2⟩
  exact ⟨v, _, hget, hmem, (fits_iff_sideConstraints _ _ _).mp hfit, rfl⟩

set_option maxRecDepth 100000 in
/-- Witness for C15: the first `get_tile` call of `create` (target 120, the
cell above the seed, table `top_tiles`), whose narrowed set is all of
`top_tiles`. -/
theorem get_tile_postcondition_witness :
    narrowed (seeded seed_grid).map.tiles 120 Map.new.top_tiles = .ok Map.new.top_tiles ∧
    ∃ v s', get_tile (fun _ => 0) 120 Map.new.top_tiles (seeded seed_grid) = .ok (v, s') ∧
      (∃ t ∈ Map.new.top_tiles, t.tile_index = v) ∧
      SideConstraints (seeded seed_grid).map.tiles 120 v ∧ s'.map = (seeded seed_grid).map :=
  ⟨first_narrowed,
   get_tile_postcondition (fun _ => 0) (seeded seed_grid) 120 Map.new.top_tiles
     length_seed_grid ⟨by decide, by decide⟩
     (fun tv h => by
        have e : Except.ok tv = Except.ok Map.new.top_tiles := h.symm.trans first_narrowed
        rw [Except.ok.inj e]
        decide)⟩

/-- C16 (which neighbours a step fills): on a well-formed map of 256 tiles,
for a cell `cur_index` of the grid and every sequence of `rand()` results, the
four `if` statements of `generate_tiles(cur_index)` return; `tile_indexes` is
the list `expected_targets`: the in-grid orthogonal neighbours of `cur_index`
on a side where its variant has an opening and that were empty at entry, in
the order top, right, bottom, left; these are exactly the cells whose variant
changed, from empty to assigned; each of them is in the same row and an
adjacent column, or in the same column and an adjacent row; and the recursion
is over exactly this list. -/
theorem generate_tiles_step_targets (rand : Nat → Nat) (s : Run) (cur_index : Int)
    (hwf : WellFormed s.map) (hcur : 0 ≤ cur_index ∧ cur_index < MAP_SIZE) :
    ∃ s1 tile_indexes,
      fill rand cur_index { s with calls := s.calls ++ [cur_index] } = .ok (s1, tile_indexes) ∧
      (∀ fuel, generate_tiles rand (fuel + 1) cur_index s
        = tile_indexes.foldlM (fun acc i => generate_tiles rand fuel i acc) s1) ∧
      tile_indexes = expected_targets s.map.tiles cur_index ∧
      (∀ i, i ∈ tile_indexes ↔
        (cell s.map.tiles i = EMPTY_CHAR_INDEX ∧ cell s1.map.tiles i ≠ EMPTY_CHAR_INDEX)) ∧
      (∀ i, i ∉ tile_indexes → cell s1.map.tiles i = cell s.map.tiles i) ∧
      (∀ i ∈ tile_indexes,
        (i / SIZE = cur_index / SIZE ∧ (i = cur_index + 1 ∨ i = cur_index - 1)) ∨
        (i % SIZE = cur_index % SIZE ∧ (i = cur_index - SIZE ∨ i = cur_index + SIZE))) := by
  have hwf0 : WellFormed ({ s with calls := s.calls ++ [cur_index] } : Run).map := hwf
  obtain ⟨s1, idxs, hfill, _, hidx, hin, hout⟩ := fill_exact rand hwf0 hcur
  refine ⟨s1, idxs, hfill, ?_, hidx, ?_, hout, ?_⟩
  · intro fuel
    rw [generate_tiles, hfill]
  · intro i
    constructor
    · exact hin i
    · rintro ⟨h0, h1⟩
      by_contra hni
      exact h1 (by rw [hout i hni]; exact h0)
  · intro i hi
    rw [hidx] at hi
    exact expected_targets_adjacent hi

set_option maxRecDepth 100000 in
/-- Witness for C16: the first invocation of `create`, on the seeded grid and
the center cell 136: the cells recorded are 120 (top), 137 (right), 152
(bottom), 135 (left), in this order. -/
theorem generate_tiles_step_targets_witness :
    WellFormed (seeded seed_grid).map ∧ (0 : Int) ≤ 136 ∧ (136 : Int) < MAP_SIZE ∧
    ∃ s1 tile_indexes,
      fill (fun _ => 0) 136
        { seeded seed_grid with calls := (seeded seed_grid).calls ++ [136] }
        = .ok (s1, tile_indexes) ∧
      tile_indexes = [120, 137, 152, 135] := by
  refine ⟨wellFormed_seeded, by decide, by decide, ?_⟩
  obtain ⟨s1, idxs, hfill, _, hidx, _⟩ :=
    generate_tiles_step_targets (fun _ => 0) (seeded seed_grid) 136 wellFormed_seeded
      ⟨by decide, by decide⟩
  exact ⟨s1, idxs, hfill, hidx.trans expected_targets_seed⟩

/-- C17 (no dangling opening): on a freshly constructed map, for every
sequence of `rand()` results, `create` returns, and in the grid it leaves every
opening of every assigned cell faces a neighbour that lies inside the grid and
is itself assigned. -/
theorem create_no_dangling_opening (rand : Nat → Nat) :
    ∃ s, create rand Map.new = .ok s ∧
      ∀ i : Int, 0 ≤ i ∧ i < MAP_SIZE → cell s.map.tiles i ≠ EMPTY_CHAR_INDEX →
        (has_top_connection (cell s.map.tiles i) = true →
          0 ≤ i - SIZE ∧ cell s.map.tiles (i - SIZE) ≠ EMPTY_CHAR_INDEX) ∧
        (has_right_connection (cell s.map.tiles i) = true →
          i % SIZE ≠ SIZE - 1 ∧ cell s.map.tiles (i + 1) ≠ EMPTY_CHAR_INDEX) ∧
        (has_bottom_connection (cell s.map.tiles i) = true →
          i + SIZE < MAP_SIZE ∧ cell s.map.tiles (i + SIZE) ≠ EMPTY_CHAR_INDEX) ∧
        (has_left_connection (cell s.map.tiles i) = true →
          i % SIZE ≠ 0 ∧ cell s.map.tiles (i - 1) ≠ EMPTY_CHAR_INDEX) := by
  obtain ⟨tiles, s, hset, hs, _, G⟩ := create_spec rand
  have h0 := (seeded_inv hset).2
  refine ⟨s, hs, ?_⟩
  intro i hi hc
  refine ⟨?_, ?_, ?_, ?_⟩
  · intro hd
    have := closed_after_create G rfl h0 hi hc .top hd
    simpa [Side.inGrid, Side.nb] using this
  · intro hd
    have := closed_after_create G rfl h0 hi hc .right hd
    simpa [Side.inGrid, Side.nb] using this
  · intro hd
    have := closed_after_create G rfl h0 hi hc .bottom hd
    simpa [Side.inGrid, Side.nb] using this
  · intro hd
    have := closed_after_create G rfl h0 hi hc .left hd
    simpa [Side.inGrid, Side.nb] using this

set_option maxRecDepth 100000 in
/-- C18 (assigned cells are distinguishable from empty ones): for every
sequence of `rand()` results, every variant that `get_tile` returns for one of
the four direction tables lies in `[1, 15]`; in every state holding the
constructor's tables an invocation of `generate_tiles` leaves each cell either
unchanged or changed from empty to a variant of `[1, 15]`; and after `create`
on a freshly constructed map every written cell holds a variant of `[1, 15]`
and a cell of the grid holds 0 exactly when it is neither the center cell nor
a cell that `generate_tiles` wrote. -/
theorem assigned_cells_nonzero (rand : Nat → Nat) :
    (∀ (ti : Int) (d : Side) (s s' : Run) (v : Int),
      get_tile rand ti (tableFor d Map.new) s = .ok (v, s') → 1 ≤ v ∧ v ≤ 15) ∧
    (∀ (fuel : Nat) (cur_index : Int) (s s' : Run),
      (∀ d, tableFor d s.map = tableFor d Map.new) →
      generate_tiles rand fuel cur_index s = .ok s' →
      ∀ i, cell s'.map.tiles i = cell s.map.tiles i ∨
        (cell s.map.tiles i = EMPTY_CHAR_INDEX ∧
          1 ≤ cell s'.map.tiles i ∧ cell s'.map.tiles i ≤ 15)) ∧
    ∃ s, create rand Map.new = .ok s ∧
      (∀ w ∈ s.writes, 1 ≤ cell s.map.tiles w.1 ∧ cell s.map.tiles w.1 ≤ 15) ∧
      (∀ i : Int, 0 ≤ i ∧ i < MAP_SIZE →
        (cell s.map.tiles i = EMPTY_CHAR_INDEX ↔
          i ≠ center_index ∧ i ∉ s.writes.map Prod.fst)) := by
  refine ⟨fun ti d s s' v h => get_tile_direction_range h,
    fun fuel cur s s' htab h => (generate_tiles_variants h htab).2, ?_⟩
  obtain ⟨tiles, s, hset, hs, _, G⟩ := create_spec rand
  have htiles : tiles = seed_grid := by
    have := seed_grid_eq
    rw [show START_CHAR_INDEX = (15 : Int) from rfl, hset] at this
    exact Except.ok.inj this
  subst htiles
  have hgen := hs
  rw [create_eq_generate] at hgen
  have hvar := (generate_tiles_variants hgen (fun d => by cases d <;> rfl)).2
  have h0 := (seeded_inv hset).2
  refine ⟨s, hs, ?_, ?_⟩
  · intro w hw
    obtain ⟨_, hne, h136⟩ := G.inv.writes_assigned w hw
    rcases hvar w.1 with e | ⟨_, hr⟩
    · exfalso
      apply hne
      rw [e]
      show cell seed_grid w.1 = 0
      rw [h0, if_neg h136]
    · exact hr
  · intro i hi
    rw [center_index_eq]
    constructor
    · intro hz
      constructor
      · rintro rfl
        rw [G.inv.seed] at hz
        exact absurd hz (by decide)
      · intro hmem
        obtain ⟨w, hw, hwi⟩ := List.mem_map.mp hmem
        have := (G.inv.writes_assigned w hw).2.1
        rw [hwi] at this
        exact this hz
    · rintro ⟨h136, hnw⟩
      by_contra hne
      rcases G.inv.assigned_written i hne with h | h
      · exact h136 h
      · exact hnw h

/-- Witness for C18: the first `get_tile` call of `create` with the constant
`rand()` stream 0 returns variant 4, which lies in `[1, 15]`. -/
theorem assigned_cells_nonzero_witness :
    get_tile (fun _ => 0) 120 (tableFor Side.top Map.new) (seeded seed_grid)
      = .ok (4, { seeded seed_grid with drawn := 1, picks := [(120, 8)] }) ∧
    (1 : Int) ≤ 4 ∧ (4 : Int) ≤ 15 :=
  ⟨first_get_tile,
   (assigned_cells_nonzero (fun _ => 0)).1 120 Side.top (seeded seed_grid) _ 4 first_get_tile⟩

/-- C19 (narrowing excludes no legal tile): on a grid of 256 cells, for a
target `ti` of the grid and any table, the four narrowings of `get_tile`
return exactly the entries of the table whose variant satisfies the four side
constraints of `ti`, in table order and with their multiplicity; hence for
every entry of the table whose variant satisfies the constraints there is a
value of the draw for which `get_tile` returns that variant. -/
theorem narrowing_keeps_every_legal_tile (tiles : List Tile) (ti : Int) (tile_vec : TileVec)
    (hlen : tiles.length = 256) (hti : 0 ≤ ti ∧ ti < MAP_SIZE) :
    narrowed tiles ti tile_vec
      = .ok (tile_vec.filter (fun t => fits tiles ti t.tile_index)) ∧
    (∀ v, fits tiles ti v = true ↔ SideConstraints tiles ti v) ∧
    (∀ tv, narrowed tiles ti tile_vec = .ok tv →
      tv.Sublist tile_vec ∧
      ∀ t, t ∈ tv ↔ t ∈ tile_vec ∧ SideConstraints tiles ti t.tile_index) ∧
    ∀ t ∈ tile_vec, SideConstraints tiles ti t.tile_index →
      ∃ r : Nat, ∀ (rand : Nat → Nat) (s : Run), s.map.tiles = tiles → rand s.drawn = r →
        ∃ s', get_tile rand ti tile_vec s = .ok (t.tile_index, s') := by
  have hn := narrowed_eq hlen hti tile_vec
  refine ⟨hn, fits_iff_sideConstraints tiles ti, ?_, ?_⟩
  · intro tv htv
    rw [hn] at htv
    cases htv
    refine ⟨List.filter_sublist _, ?_⟩
    intro t
    rw [List.mem_filter, fits_iff_sideConstraints]
  · intro t ht hc
    have hmem : t ∈ tile_vec.filter (fun t => fits tiles ti t.tile_index) :=
      List.mem_filter.mpr ⟨ht, (fits_iff_sideConstraints _ _ _).mpr hc⟩
    obtain ⟨j, hj, hjt⟩ := List.getElem_of_mem hmem
    refine ⟨j, ?_⟩
    intro rand s hs hr
    subst hs
    refine ⟨{ s with drawn := s.drawn + 1,
                     picks := s.picks ++ [(ti, (tile_vec.filter
                       (fun t => fits s.map.tiles ti t.tile_index)).length)] }, ?_⟩
    unfold get_tile
    rw [hn]
    simp only [hr, pick_at hj, hjt]

set_option maxRecDepth 100000 in
/-- Witness for C19: the first `get_tile` call of `create`; the narrowing of
`top_tiles` for the target 120 keeps all eight entries, among them variant 15. -/
theorem narrowing_keeps_every_legal_tile_witness :
    seed_grid.length = 256 ∧ (0 : Int) ≤ 120 ∧ (120 : Int) < MAP_SIZE ∧
    narrowed seed_grid 120 Map.new.top_tiles
      = .ok (Map.new.top_tiles.filter (fun t => fits seed_grid 120 t.tile_index)) ∧
    (fits seed_grid 120 15 = true ↔ SideConstraints seed_grid 120 15) :=
  ⟨length_seed_grid, by decide, by decide,
   (narrowing_keeps_every_legal_tile seed_grid 120 Map.new.top_tiles length_seed_grid
     ⟨by decide, by decide⟩).1,
   (narrowing_keeps_every_legal_tile seed_grid 120 Map.new.top_tiles length_seed_grid
     ⟨by decide, by decide⟩).2.1 15⟩

end DungeonGenerator
